import Mathlib

/-!
Verification of the session analyzer of `vibe_replay` (src/vibe_replay/analyzer.py)
against its natural-language specification.

The Python source is shallowly embedded: events are records, `datetime`
timestamps are modelled as integer seconds (the analyzer only subtracts and
compares them), Python `float` confidences and ratio thresholds are modelled
as exact rationals, Python lists/dicts become Lean lists (insertion-ordered
association lists for dicts), and every loop becomes a structurally recursive
function.  Definitions keep the source's names where Lean allows it.
-/

/-- `EventType` enum from models.py. -/
inductive EventType where
  | tool_call | code_change | decision | error | user_message
  | session_start | session_end | notification
deriving DecidableEq

/-- `SessionPhase` enum from models.py. -/
inductive SessionPhase where
  | exploration | implementation | debugging | testing
  | refactoring | configuration | documentation | unknown
deriving DecidableEq

/-- `InsightType` enum from models.py. -/
inductive InsightType where
  | decision | learning | mistake | pattern | turning_point
deriving DecidableEq

/-- `Event` record from models.py.  `timestamp` is modelled as integer seconds;
the opaque `details` payload (unused by the analyzer) is omitted. -/
structure Event where
  timestamp : Int := 0
  session_id : String := ""
  event_type : EventType := EventType.tool_call
  tool_name : Option String := none
  summary : String := ""
  code_diff : Option String := none
  files_affected : List String := []
deriving DecidableEq

/-- Default `Event` used for out-of-range list reads (every read in the
embedding is guarded to stay in bounds, mirroring Python indexing). -/
def dfltEvent : Event := {}

/-- `Insight` record from models.py.  `confidence` is modelled as a rational. -/
structure Insight where
  insight_type : InsightType
  title : String
  description : String
  supporting_events : List Nat := []
  confidence : Rat := mkRat 1 2
deriving DecidableEq

/-- `TimelinePhase` record from models.py. -/
structure TimelinePhase where
  phase : SessionPhase
  start_index : Nat
  end_index : Nat
  start_time : Int
  end_time : Int
  event_count : Nat
  summary : String := ""
  key_events : List Nat := []
deriving DecidableEq

/-- Default `TimelinePhase` used for guarded out-of-range list reads. -/
def dfltPhase : TimelinePhase :=
  { phase := SessionPhase.unknown, start_index := 0, end_index := 0,
    start_time := 0, end_time := 0, event_count := 0 }

/-! ### String utilities

Python's substring test `kw in s` is embedded as a contiguous-sublist search
on the underlying character lists. -/

/-- `listStartsWith l pat` : `pat` is a prefix of `l`. -/
def listStartsWith : List Char → List Char → Bool
  | _, [] => true
  | [], _ :: _ => false
  | a :: as, b :: bs => a == b && listStartsWith as bs

/-- `listContainsSub l pat` : `pat` occurs contiguously inside `l`. -/
def listContainsSub : List Char → List Char → Bool
  | [], pat => listStartsWith [] pat
  | c :: as, pat => listStartsWith (c :: as) pat || listContainsSub as pat

/-- Python `pat in s` (substring containment). -/
def strContainsSub (s pat : String) : Bool :=
  listContainsSub s.data pat.data

/-- Python `s.lower()`, as a character-wise map (the analyzer's summaries are
ASCII keyword targets, for which this agrees with `str.lower`). -/
def strToLower (s : String) : String :=
  ⟨s.data.map Char.toLower⟩

/-- Python `any(kw in s for kw in kws)`. -/
def containsAnyKw (s : String) (kws : List String) : Bool :=
  kws.any fun kw => strContainsSub s kw

/-! ### Phase classifier (analyzer.py lines 30-85) -/

/-- `PHASE_INDICATORS` tool→phase table (a Python dict, embedded as an
association list in the source's insertion order). -/
def PHASE_INDICATORS : List (String × List SessionPhase) :=
  [("Read", [SessionPhase.exploration]),
   ("Glob", [SessionPhase.exploration]),
   ("Grep", [SessionPhase.exploration, SessionPhase.debugging]),
   ("WebSearch", [SessionPhase.exploration]),
   ("WebFetch", [SessionPhase.exploration]),
   ("Edit", [SessionPhase.implementation, SessionPhase.refactoring]),
   ("Write", [SessionPhase.implementation, SessionPhase.configuration]),
   ("Bash", [SessionPhase.testing, SessionPhase.debugging, SessionPhase.configuration]),
   ("NotebookEdit", [SessionPhase.implementation]),
   ("Task", [SessionPhase.implementation])]

/-- `DEBUG_KEYWORDS` (a Python set; order is irrelevant to `any`). -/
def DEBUG_KEYWORDS : List String :=
  ["error", "fail", "bug", "fix", "debug", "traceback", "exception",
   "broken", "crash", "issue", "wrong", "problem", "unexpected"]

/-- `TEST_KEYWORDS`. -/
def TEST_KEYWORDS : List String :=
  ["test", "pytest", "assert", "spec", "coverage", "mock", "fixture"]

/-- `CONFIG_KEYWORDS`. -/
def CONFIG_KEYWORDS : List String :=
  ["config", "setup", "install", "dependency", "pyproject", "package",
   "requirements", "env", "docker", "deploy"]

/-- The documentation keywords, inlined as a tuple in the source. -/
def DOC_KEYWORDS : List String := ["readme", "doc", "comment", "docstring"]

/-- `_detect_phase_from_event` (analyzer.py lines 62-85).  Python's
`phases[0]` on the (always non-empty) table entry is `headD` with the
`unknown` default. -/
def _detect_phase_from_event (e : Event) : SessionPhase :=
  let summary_lower := strToLower e.summary
  let tool := e.tool_name.getD ""
  if containsAnyKw summary_lower DEBUG_KEYWORDS then SessionPhase.debugging
  else if containsAnyKw summary_lower TEST_KEYWORDS then SessionPhase.testing
  else if containsAnyKw summary_lower CONFIG_KEYWORDS then SessionPhase.configuration
  else if containsAnyKw summary_lower DOC_KEYWORDS then SessionPhase.documentation
  else ((PHASE_INDICATORS.lookup tool).getD [SessionPhase.unknown]).headD SessionPhase.unknown

/-- C5: The phase classifier is a total function with keyword priority
debugging > testing > configuration > documentation, falling back on the
first phase listed in the static tool table, and `unknown` when the tool is
absent or not in the table. -/
theorem classifier_priority (e : Event) :
    (containsAnyKw (strToLower e.summary) DEBUG_KEYWORDS = true →
      _detect_phase_from_event e = SessionPhase.debugging) ∧
    (containsAnyKw (strToLower e.summary) DEBUG_KEYWORDS = false →
      containsAnyKw (strToLower e.summary) TEST_KEYWORDS = true →
      _detect_phase_from_event e = SessionPhase.testing) ∧
    (containsAnyKw (strToLower e.summary) DEBUG_KEYWORDS = false →
      containsAnyKw (strToLower e.summary) TEST_KEYWORDS = false →
      containsAnyKw (strToLower e.summary) CONFIG_KEYWORDS = true →
      _detect_phase_from_event e = SessionPhase.configuration) ∧
    (containsAnyKw (strToLower e.summary) DEBUG_KEYWORDS = false →
      containsAnyKw (strToLower e.summary) TEST_KEYWORDS = false →
      containsAnyKw (strToLower e.summary) CONFIG_KEYWORDS = false →
      containsAnyKw (strToLower e.summary) DOC_KEYWORDS = true →
      _detect_phase_from_event e = SessionPhase.documentation) ∧
    (containsAnyKw (strToLower e.summary) DEBUG_KEYWORDS = false →
      containsAnyKw (strToLower e.summary) TEST_KEYWORDS = false →
      containsAnyKw (strToLower e.summary) CONFIG_KEYWORDS = false →
      containsAnyKw (strToLower e.summary) DOC_KEYWORDS = false →
      ∀ ps : List SessionPhase,
        PHASE_INDICATORS.lookup (e.tool_name.getD "") = some ps →
        _detect_phase_from_event e = ps.headD SessionPhase.unknown) ∧
    (containsAnyKw (strToLower e.summary) DEBUG_KEYWORDS = false →
      containsAnyKw (strToLower e.summary) TEST_KEYWORDS = false →
      containsAnyKw (strToLower e.summary) CONFIG_KEYWORDS = false →
      containsAnyKw (strToLower e.summary) DOC_KEYWORDS = false →
      PHASE_INDICATORS.lookup (e.tool_name.getD "") = none →
      _detect_phase_from_event e = SessionPhase.unknown) ∧
    (containsAnyKw (strToLower e.summary) DEBUG_KEYWORDS = false →
      containsAnyKw (strToLower e.summary) TEST_KEYWORDS = false →
      containsAnyKw (strToLower e.summary) CONFIG_KEYWORDS = false →
      containsAnyKw (strToLower e.summary) DOC_KEYWORDS = false →
      e.tool_name = none →
      _detect_phase_from_event e = SessionPhase.unknown) := by
  refine ⟨?_, ?_, ?_, ?_, ?_, ?_, ?_⟩
  · intro h1
    simp [_detect_phase_from_event, h1]
  · intro h1 h2
    simp [_detect_phase_from_event, h1, h2]
  · intro h1 h2 h3
    simp [_detect_phase_from_event, h1, h2, h3]
  · intro h1 h2 h3 h4
    simp [_detect_phase_from_event, h1, h2, h3, h4]
  · intro h1 h2 h3 h4 ps hps
    simp [_detect_phase_from_event, h1, h2, h3, h4, hps]
  · intro h1 h2 h3 h4 hn
    simp [_detect_phase_from_event, h1, h2, h3, h4, hn]
  · intro h1 h2 h3 h4 h5
    have hn : PHASE_INDICATORS.lookup "" = none := by decide
    simp [_detect_phase_from_event, h1, h2, h3, h4, h5, hn]

/-- A concrete event whose summary carries a debugging keyword. -/
def errEvent : Event := { summary := "Error: traceback seen", tool_name := some "Read" }

/-- Witness for C5: at a concrete event whose lower-cased summary contains a
debugging keyword, the classifier answers `debugging` regardless of the tool. -/
theorem classifier_priority_witness :
    containsAnyKw (strToLower errEvent.summary) DEBUG_KEYWORDS = true ∧
    _detect_phase_from_event errEvent = SessionPhase.debugging :=
  ⟨by decide, (classifier_priority errEvent).1 (by decide)⟩

/-! ### Run builder (analyzer.py lines 88-213)

`_identify_phase_runs` labels every event, suppresses blips while extracting
maximal runs, then applies three smoothing passes (absorb tiny runs, merge
same-phase neighbours, cap the run count).  The Python `for`/`while` loops
become structurally recursive functions; the two loops that only append to or
replace the last element of an output list carry that list reversed
(`accRev`), and the cap `while` loop carries a fuel argument that bounds its
remaining iterations (the run count strictly decreases per iteration, so the
initial run count is always enough fuel; proved below). -/

/-- The blip-suppression test at position `i` (analyzer.py lines 109-113):
`look_ahead = min(i + 3, len(phases))`, require `look_ahead - i >= 2` and
all labels in `phases[i+1:look_ahead]` equal to `current`. -/
def blipCheck (phases : List SessionPhase) (i : Nat) (current : SessionPhase) : Bool :=
  let look_ahead := min (i + 3) phases.length
  decide (2 ≤ look_ahead - i) &&
    (List.range (look_ahead - (i + 1))).all
      (fun j => phases.getD (i + 1 + j) SessionPhase.unknown == current)

/-- The run-extraction loop `for i in range(1, len(phases))` (analyzer.py
lines 105-141), including the in-place patch `phases[i] = current_phase` on a
suppressed blip.  `fuel` counts the remaining iterations; the top-level call
passes `phases.length - 1` so that `fuel = len(phases) - i` throughout and
running out of fuel coincides with loop exit, where the final run is
appended. -/
def buildRuns (events : List Event) :
    Nat → List SessionPhase → Nat → SessionPhase → Nat → List TimelinePhase →
    List TimelinePhase
  | 0, _, _, current_phase, start_idx, runs =>
    runs ++ [{ phase := current_phase, start_index := start_idx,
               end_index := events.length - 1,
               start_time := (events.getD start_idx dfltEvent).timestamp,
               end_time := (events.getD (events.length - 1) dfltEvent).timestamp,
               event_count := events.length - start_idx }]
  | fuel + 1, phases, i, current_phase, start_idx, runs =>
    let ph := phases.getD i SessionPhase.unknown
    if ph != current_phase then
      if blipCheck phases i current_phase then
        buildRuns events fuel (phases.set i current_phase) (i + 1)
          current_phase start_idx runs
      else
        buildRuns events fuel phases (i + 1) ph i
          (runs ++ [{ phase := current_phase, start_index := start_idx,
                      end_index := i - 1,
                      start_time := (events.getD start_idx dfltEvent).timestamp,
                      end_time := (events.getD (i - 1) dfltEvent).timestamp,
                      event_count := i - start_idx }])
    else
      buildRuns events fuel phases (i + 1) current_phase start_idx runs

/-- The merged `TimelinePhase` built when a run is folded into its
predecessor; the identical record construction appears in smoothing steps 1
and 2 (analyzer.py lines 151-159 and 168-176). -/
def mergeWithPrev (prev run : TimelinePhase) : TimelinePhase :=
  { phase := prev.phase, start_index := prev.start_index,
    end_index := run.end_index, start_time := prev.start_time,
    end_time := run.end_time,
    event_count := prev.event_count + run.event_count,
    key_events := prev.key_events ++ run.key_events }

/-- Common shape of smoothing steps 1 and 2: scan the run list left to right
and either push the run or fold it into the previous output run when
`mergeCond prev run` holds.  The output accumulator is kept reversed. -/
def smoothLoop (mergeCond : TimelinePhase → TimelinePhase → Bool)
    (accRev : List TimelinePhase) : List TimelinePhase → List TimelinePhase
  | [] => accRev.reverse
  | run :: rest =>
    match accRev with
    | [] => smoothLoop mergeCond [run] rest
    | prev :: ms =>
      if mergeCond prev run then
        smoothLoop mergeCond (mergeWithPrev prev run :: ms) rest
      else
        smoothLoop mergeCond (run :: prev :: ms) rest

/-- Step 1 (analyzer.py lines 145-161): absorb runs with fewer than 3 events
or wall-clock duration under 120 s into the preceding run (the first run is
exempt). -/
def absorbSmallRuns (runs : List TimelinePhase) : List TimelinePhase :=
  smoothLoop (fun _ run =>
    decide (run.event_count < 3) || decide (run.end_time - run.start_time < 120)) [] runs

/-- Step 2 (analyzer.py lines 164-178): merge adjacent runs sharing a phase. -/
def consolidateSamePhase (runs : List TimelinePhase) : List TimelinePhase :=
  smoothLoop (fun prev run => prev.phase == run.phase) [] runs

/-- `min(range(len(cs)), key=lambda i: cs[i].event_count)` — the first index
attaining the minimal event count (Python `min` keeps the earliest). -/
def argminAux : List TimelinePhase → Nat → Nat → Nat → Nat
  | [], _, best, _ => best
  | c :: rest, i, best, bestVal =>
    if c.event_count < bestVal then argminAux rest (i + 1) i c.event_count
    else argminAux rest (i + 1) best bestVal

/-- First index of minimal `event_count` (0 on the empty list, which the
source never queries). -/
def argminCount : List TimelinePhase → Nat
  | [] => 0
  | c :: rest => argminAux rest 1 0 c.event_count

/-- The merge-partner selection of the cap loop (analyzer.py lines 187-197),
returning the sorted pair `(a, b) = sorted([min_idx, merge_with])`. -/
def mergeTargets (cs : List TimelinePhase) : Nat × Nat :=
  let min_idx := argminCount cs
  let merge_with :=
    if min_idx == 0 then 1
    else if min_idx == cs.length - 1 then min_idx - 1
    else if (cs.getD (min_idx - 1) dfltPhase).event_count ≤
            (cs.getD (min_idx + 1) dfltPhase).event_count
      then min_idx - 1 else min_idx + 1
  (min min_idx merge_with, max min_idx merge_with)

/-- One iteration of the cap loop (analyzer.py lines 186-211): merge the
smallest run with its chosen neighbour, keeping the phase of the larger of
the two (ties favour the left one), and delete the right slot. -/
def mergeStep (cs : List TimelinePhase) : List TimelinePhase :=
  let ab := mergeTargets cs
  let pa := cs.getD ab.1 dfltPhase
  let pb := cs.getD ab.2 dfltPhase
  let keep_phase := if pb.event_count ≤ pa.event_count then pa.phase else pb.phase
  let merged : TimelinePhase :=
    { phase := keep_phase, start_index := pa.start_index,
      end_index := pb.end_index, start_time := pa.start_time,
      end_time := pb.end_time,
      event_count := pa.event_count + pb.event_count,
      key_events := pa.key_events ++ pb.key_events }
  (cs.set ab.1 merged).eraseIdx ab.2

/-- Step 3, the `while len(consolidated) > max_phases` loop (analyzer.py
lines 185-211).  `fuel` bounds the remaining iterations; the top-level call
passes the current run count, which always suffices because every iteration
removes exactly one run (proved below). -/
def capLoop (fuel max_phases : Nat) (cs : List TimelinePhase) : List TimelinePhase :=
  match fuel with
  | 0 => cs
  | f + 1 =>
    if max_phases < cs.length then capLoop f max_phases (mergeStep cs) else cs

/-- `consolidated[-1].end_time - consolidated[0].start_time` (analyzer.py
line 183); also the session duration named by the cap invariant. -/
def timelineDuration (tl : List TimelinePhase) : Int :=
  ((tl.getLast?).getD dfltPhase).end_time - (tl.headD dfltPhase).start_time

/-- `_identify_phase_runs` (analyzer.py lines 88-213). -/
def _identify_phase_runs (events : List Event) : List TimelinePhase :=
  if events.isEmpty then []
  else
    let phases := events.map _detect_phase_from_event
    let runs := buildRuns events (phases.length - 1) phases 1
      (phases.headD SessionPhase.unknown) 0 []
    let merged := absorbSmallRuns runs
    let consolidated := consolidateSamePhase merged
    let total_duration : Int :=
      if consolidated.isEmpty then 0 else timelineDuration consolidated
    let max_phases := if 3600 < total_duration then 8 else 6
    capLoop consolidated.length max_phases consolidated

/-! ### C4: blip suppression -/

/-- Modelled from the spec's words for blip suppression: within the next
up-to-3 positions after `i` (the window `phases[i+1 : min(i+3, len)]`, which
holds at most two positions) there are at least 2 consecutive labels equal to
the pre-change label `current` — i.e. positions `i+1` and `i+2` both exist
and both match. -/
def blipCheckSpec (phases : List SessionPhase) (i : Nat) (current : SessionPhase) : Bool :=
  decide (i + 3 ≤ phases.length) &&
    (phases.getD (i + 1) SessionPhase.unknown == current) &&
    (phases.getD (i + 2) SessionPhase.unknown == current)

/-- C4 counterexample: with labels `[exploration, implementation,
exploration]` the label change at position 1 is followed by a single matching
event, so the spec's "at least 2 consecutive" condition fails, yet the code
overwrites the label (its window test degenerates to one position at the end
of the sequence). -/
theorem blip_suppression_counterexample :
    blipCheck [SessionPhase.exploration, SessionPhase.implementation,
               SessionPhase.exploration] 1 SessionPhase.exploration = true ∧
    blipCheckSpec [SessionPhase.exploration, SessionPhase.implementation,
                   SessionPhase.exploration] 1 SessionPhase.exploration = false := by
  constructor
  · rfl
  · rfl

/-- C4 (amended): the overwrite condition agrees with the spec's
"at least 2 consecutive matching events" reading whenever at least two
positions follow `i`; when exactly one position follows (`len = i + 2`) a
single matching event suffices, and when none follows no overwrite occurs. -/
theorem blip_suppression_amended (phases : List SessionPhase) (i : Nat)
    (current : SessionPhase) :
    blipCheck phases i current =
      if phases.length = i + 2 then
        phases.getD (i + 1) SessionPhase.unknown == current
      else blipCheckSpec phases i current := by
  unfold blipCheck blipCheckSpec
  rcases Nat.lt_or_ge phases.length (i + 2) with hlt | hge
  · have hmin : min (i + 3) phases.length = phases.length :=
      Nat.min_eq_right (by omega)
    have hsub : phases.length - i < 2 := by omega
    have hne : phases.length ≠ i + 2 := by omega
    simp only [hmin, if_neg hne]
    have h1 : decide (2 ≤ phases.length - i) = false := by
      simp only [decide_eq_false_iff_not]; omega
    have h2 : decide (i + 3 ≤ phases.length) = false := by
      simp only [decide_eq_false_iff_not]; omega
    simp [h1, h2]
  · rcases Nat.lt_or_ge phases.length (i + 3) with hlt3 | hge3
    · -- exactly one following position: length = i + 2
      have hlen : phases.length = i + 2 := by omega
      have hmin : min (i + 3) phases.length = i + 2 := by omega
      have h1 : decide (2 ≤ i + 2 - i) = true := by
        simp only [decide_eq_true_eq]; omega
      have hr : i + 2 - (i + 1) = 1 := by omega
      have hrange : List.range 1 = [0] := rfl
      simp only [hmin, if_pos hlen, h1, hr, hrange, List.all_cons,
        List.all_nil, Bool.true_and, Bool.and_true, Nat.add_zero]
    · -- at least two following positions
      have hmin : min (i + 3) phases.length = i + 3 := by omega
      have hne : phases.length ≠ i + 2 := by omega
      have h1 : decide (2 ≤ i + 3 - i) = true := by
        simp only [decide_eq_true_eq]; omega
      have h2 : decide (i + 3 ≤ phases.length) = true := by
        simp only [decide_eq_true_eq]; omega
      have hr : i + 3 - (i + 1) = 2 := by omega
      have hrange : List.range 2 = [0, 1] := rfl
      simp only [hmin, if_neg hne, h1, h2, hr, hrange, List.all_cons,
        List.all_nil, Bool.true_and, Bool.and_true, Nat.add_zero,
        Bool.and_assoc]

/-! ### C1: the timeline tiles the event index range -/

/-- `coversFrom s ps e`: the runs `ps` tile the index interval `[s, e)` in
order — each run starts exactly where its predecessor ended plus one, has
`start_index ≤ end_index`, and its `event_count` equals its width; the last
run ends at `e - 1`. -/
def coversFrom : Nat → List TimelinePhase → Nat → Bool
  | s, [], e => s == e
  | s, p :: rest, e =>
    (p.start_index == s) && decide (s ≤ p.end_index) &&
      (p.event_count == p.end_index + 1 - s) &&
      coversFrom (p.end_index + 1) rest e

theorem coversFrom_nil_iff {s e : Nat} : coversFrom s [] e = true ↔ s = e := by
  simp [coversFrom]

theorem coversFrom_cons_iff {s e : Nat} {p : TimelinePhase} {rest : List TimelinePhase} :
    coversFrom s (p :: rest) e = true ↔
      p.start_index = s ∧ s ≤ p.end_index ∧
      p.event_count = p.end_index + 1 - s ∧
      coversFrom (p.end_index + 1) rest e = true := by
  simp [coversFrom, and_assoc]

theorem coversFrom_le : ∀ (ps : List TimelinePhase) {s e : Nat},
    coversFrom s ps e = true → s ≤ e := by
  intro ps
  induction ps with
  | nil => intro s e h; rw [coversFrom_nil_iff] at h; omega
  | cons p rest ih =>
    intro s e h
    rw [coversFrom_cons_iff] at h
    have := ih h.2.2.2
    omega

theorem coversFrom_append {xs : List TimelinePhase} :
    ∀ {ys : List TimelinePhase} {s m e : Nat},
    coversFrom s xs m = true → coversFrom m ys e = true →
    coversFrom s (xs ++ ys) e = true := by
  induction xs with
  | nil =>
    intro ys s m e hx hy
    rw [coversFrom_nil_iff] at hx
    simpa [hx] using hy
  | cons p rest ih =>
    intro ys s m e hx hy
    rw [coversFrom_cons_iff] at hx
    rw [List.cons_append, coversFrom_cons_iff]
    exact ⟨hx.1, hx.2.1, hx.2.2.1, ih hx.2.2.2 hy⟩

theorem coversFrom_split : ∀ (xs : List TimelinePhase) {ys : List TimelinePhase}
    {s e : Nat}, coversFrom s (xs ++ ys) e = true →
    ∃ m, coversFrom s xs m = true ∧ coversFrom m ys e = true := by
  intro xs
  induction xs with
  | nil =>
    intro ys s e h
    exact ⟨s, by rw [coversFrom_nil_iff], h⟩
  | cons p rest ih =>
    intro ys s e h
    rw [List.cons_append, coversFrom_cons_iff] at h
    obtain ⟨m, hm1, hm2⟩ := ih h.2.2.2
    exact ⟨m, by rw [coversFrom_cons_iff]; exact ⟨h.1, h.2.1, h.2.2.1, hm1⟩, hm2⟩

theorem coversFrom_singleton_iff {s e : Nat} {p : TimelinePhase} :
    coversFrom s [p] e = true ↔
      p.start_index = s ∧ s ≤ p.end_index ∧
      p.event_count = p.end_index + 1 - s ∧ p.end_index + 1 = e := by
  rw [coversFrom_cons_iff, coversFrom_nil_iff]

theorem coversFrom_snoc {s m : Nat} {xs : List TimelinePhase} (p : TimelinePhase)
    (hx : coversFrom s xs m = true) (h1 : p.start_index = m)
    (h2 : m ≤ p.end_index) (h3 : p.event_count = p.end_index + 1 - m) :
    coversFrom s (xs ++ [p]) (p.end_index + 1) = true :=
  coversFrom_append hx (coversFrom_singleton_iff.mpr ⟨h1, h2, h3, rfl⟩)

/-- The run-extraction loop keeps the runs accumulated so far tiling
`[0, start_idx)` and closes the tiling at `events.length` when it exits. -/
theorem buildRuns_coversFrom (events : List Event) :
    ∀ (fuel : Nat) (phases : List SessionPhase) (i : Nat) (cp : SessionPhase)
      (si : Nat) (runs : List TimelinePhase),
      i + fuel = events.length → si < i →
      coversFrom 0 runs si = true →
      coversFrom 0 (buildRuns events fuel phases i cp si runs) events.length = true := by
  intro fuel
  induction fuel with
  | zero =>
    intro phases i cp si runs hif hsi hruns
    have hlen : i = events.length := by omega
    have h1 : events.length - 1 + 1 = events.length := by omega
    rw [buildRuns]
    have := coversFrom_snoc
      { phase := cp, start_index := si, end_index := events.length - 1,
        start_time := (events.getD si dfltEvent).timestamp,
        end_time := (events.getD (events.length - 1) dfltEvent).timestamp,
        event_count := events.length - si } hruns rfl (by simp; omega) (by simp; omega)
    rwa [h1] at this
  | succ f ih =>
    intro phases i cp si runs hif hsi hruns
    simp only [buildRuns]
    split
    · split
      · exact ih (phases.set i cp) (i + 1) cp si runs (by omega) (by omega) hruns
      · apply ih phases (i + 1) _ i _ (by omega) (by omega)
        have h1 : i - 1 + 1 = i := by omega
        have := coversFrom_snoc
          { phase := cp, start_index := si, end_index := i - 1,
            start_time := (events.getD si dfltEvent).timestamp,
            end_time := (events.getD (i - 1) dfltEvent).timestamp,
            event_count := i - si } hruns rfl (by simp; omega) (by simp; omega)
        rwa [h1] at this
    · exact ih phases (i + 1) cp si runs (by omega) (by omega) hruns

/-- Both smoothing passes preserve the tiling: each step either appends the
next run or fuses it into the last output run, keeping index bounds and
event counts additive. -/
theorem smoothLoop_coversFrom (mergeCond : TimelinePhase → TimelinePhase → Bool) :
    ∀ (rest accRev : List TimelinePhase) {s e : Nat},
      coversFrom 0 accRev.reverse s = true → coversFrom s rest e = true →
      coversFrom 0 (smoothLoop mergeCond accRev rest) e = true := by
  intro rest
  induction rest with
  | nil =>
    intro accRev s e hacc hrest
    rw [coversFrom_nil_iff] at hrest
    rw [smoothLoop]
    rwa [hrest] at hacc
  | cons run rest ih =>
    intro accRev s e hacc hrest
    rw [coversFrom_cons_iff] at hrest
    obtain ⟨hstart, hle, hcnt, htail⟩ := hrest
    cases accRev with
    | nil =>
      rw [smoothLoop]
      apply ih [run] _ htail
      simp only [List.reverse_nil] at hacc
      rw [coversFrom_nil_iff] at hacc
      simp only [List.reverse_cons, List.reverse_nil, List.nil_append]
      rw [coversFrom_singleton_iff]
      exact ⟨by omega, by omega, by omega, rfl⟩
    | cons prev ms =>
      rw [smoothLoop]
      split
      · -- fold `run` into `prev`
        apply ih (mergeWithPrev prev run :: ms) _ htail
        rw [List.reverse_cons] at hacc ⊢
        obtain ⟨m, hm1, hm2⟩ := coversFrom_split ms.reverse hacc
        rw [coversFrom_singleton_iff] at hm2
        obtain ⟨hp1, hp2, hp3, hp4⟩ := hm2
        apply coversFrom_snoc _ hm1
        · exact hp1
        · show m ≤ run.end_index; omega
        · show prev.event_count + run.event_count = run.end_index + 1 - m
          omega
      · -- push `run`
        apply ih (run :: prev :: ms) _ htail
        rw [List.reverse_cons]
        exact coversFrom_snoc _ hacc (by omega) (by omega) (by omega)

theorem argminAux_lt : ∀ (cs : List TimelinePhase) (i best v : Nat),
    best < i → argminAux cs i best v < i + cs.length := by
  intro cs
  induction cs with
  | nil => intro i best v h; rw [argminAux]; omega
  | cons c rest ih =>
    intro i best v h
    rw [argminAux]
    split
    · have h1 := ih (i + 1) i c.event_count (by omega)
      simp only [List.length_cons]
      omega
    · have h1 := ih (i + 1) best v (by omega)
      simp only [List.length_cons]
      omega

theorem argminCount_lt : ∀ (cs : List TimelinePhase), cs ≠ [] →
    argminCount cs < cs.length := by
  intro cs hne
  cases cs with
  | nil => exact absurd rfl hne
  | cons c rest =>
    rw [argminCount]
    have := argminAux_lt rest 1 0 c.event_count (by omega)
    simpa [Nat.add_comm] using this

/-- The two slots fused by a cap-loop iteration are always adjacent, and the
right one is in range. -/
theorem mergeTargets_spec (cs : List TimelinePhase) (h2 : 2 ≤ cs.length) :
    (mergeTargets cs).2 = (mergeTargets cs).1 + 1 ∧
    (mergeTargets cs).2 < cs.length := by
  have hne : cs ≠ [] := by cases cs <;> simp_all
  have hm := argminCount_lt cs hne
  rw [mergeTargets]
  by_cases h0 : argminCount cs = 0
  · simp only [h0, beq_self_eq_true, if_true]
    refine ⟨?_, ?_⟩
    · show max 0 1 = min 0 1 + 1
      omega
    · show max 0 1 < cs.length
      omega
  · have h0' : (argminCount cs == 0) = false := by simp [h0]
    simp only [h0', Bool.false_eq_true, if_false]
    by_cases hlast : argminCount cs = cs.length - 1
    · have hlast' : (argminCount cs == cs.length - 1) = true := by simp [hlast]
      simp only [hlast', if_true]
      refine ⟨?_, ?_⟩
      · show max (argminCount cs) (argminCount cs - 1) =
          min (argminCount cs) (argminCount cs - 1) + 1
        omega
      · show max (argminCount cs) (argminCount cs - 1) < cs.length
        omega
    · have hlast' : (argminCount cs == cs.length - 1) = false := by simp [hlast]
      simp only [hlast', Bool.false_eq_true, if_false]
      split
      · refine ⟨?_, ?_⟩
        · show max (argminCount cs) (argminCount cs - 1) =
            min (argminCount cs) (argminCount cs - 1) + 1
          omega
        · show max (argminCount cs) (argminCount cs - 1) < cs.length
          omega
      · refine ⟨?_, ?_⟩
        · show max (argminCount cs) (argminCount cs + 1) =
            min (argminCount cs) (argminCount cs + 1) + 1
          omega
        · show max (argminCount cs) (argminCount cs + 1) < cs.length
          omega

/-- Replacing slot `a` by a run spanning slots `a` and `a+1` (with summed
event count) and deleting slot `a+1` preserves the tiling. -/
theorem coversFrom_merge_adjacent :
    ∀ (a : Nat) (cs : List TimelinePhase) {s e : Nat} (q : TimelinePhase),
      a + 1 < cs.length →
      q.start_index = (cs.getD a dfltPhase).start_index →
      q.end_index = (cs.getD (a + 1) dfltPhase).end_index →
      q.event_count = (cs.getD a dfltPhase).event_count +
        (cs.getD (a + 1) dfltPhase).event_count →
      coversFrom s cs e = true →
      coversFrom s ((cs.set a q).eraseIdx (a + 1)) e = true := by
  intro a
  induction a with
  | zero =>
    intro cs s e q hlt hqs hqe hqc hcov
    match cs, hlt with
    | p0 :: p1 :: rest, _ =>
      rw [coversFrom_cons_iff] at hcov
      obtain ⟨h1, h2, h3, htail⟩ := hcov
      rw [coversFrom_cons_iff] at htail
      obtain ⟨h4, h5, h6, htail2⟩ := htail
      show coversFrom s (q :: rest) e = true
      rw [coversFrom_cons_iff]
      simp only [List.getD_cons_zero, List.getD_cons_succ] at hqs hqe hqc
      refine ⟨by omega, by omega, by omega, ?_⟩
      have : q.end_index + 1 = p1.end_index + 1 := by omega
      rwa [this]
  | succ a ih =>
    intro cs s e q hlt hqs hqe hqc hcov
    match cs, hlt with
    | p :: cs', hlt' =>
      rw [coversFrom_cons_iff] at hcov
      obtain ⟨h1, h2, h3, htail⟩ := hcov
      simp only [List.getD_cons_succ] at hqs hqe hqc
      show coversFrom s (p :: (cs'.set a q).eraseIdx (a + 1)) e = true
      rw [coversFrom_cons_iff]
      refine ⟨h1, h2, h3, ih cs' q ?_ hqs hqe hqc htail⟩
      have h4 := hlt'
      simp only [List.length_cons] at h4
      omega

theorem mergeStep_coversFrom {cs : List TimelinePhase} {s e : Nat}
    (h2 : 2 ≤ cs.length) (hcov : coversFrom s cs e = true) :
    coversFrom s (mergeStep cs) e = true := by
  obtain ⟨hb, hlt⟩ := mergeTargets_spec cs h2
  simp only [mergeStep]
  rw [hb]
  exact coversFrom_merge_adjacent (mergeTargets cs).1 cs _ (by omega) rfl rfl rfl hcov

theorem capLoop_coversFrom : ∀ (fuel max_phases : Nat)
    (cs : List TimelinePhase) {s e : Nat}, 1 ≤ max_phases →
    coversFrom s cs e = true →
    coversFrom s (capLoop fuel max_phases cs) e = true := by
  intro fuel
  induction fuel with
  | zero => intro mp cs s e hmp hcov; exact hcov
  | succ f ih =>
    intro mp cs s e hmp hcov
    rw [capLoop]
    split
    · exact ih mp (mergeStep cs) hmp (mergeStep_coversFrom (by omega) hcov)
    · exact hcov

theorem coversFrom_ne_nil {s e : Nat} {ps : List TimelinePhase}
    (hcov : coversFrom s ps e = true) (hne : s ≠ e) : ps ≠ [] := by
  intro hnil
  subst hnil
  rw [coversFrom_nil_iff] at hcov
  exact hne hcov

/-- C1: for a non-empty event sequence the timeline returned by the run
builder tiles `[0, len(events)-1]` exactly once — ordered, contiguous,
non-overlapping, fully covering, with each phase's `event_count` equal to
`end_index - start_index + 1` — and the empty input yields the empty
timeline. -/
theorem timeline_partition (events : List Event) (h : events ≠ []) :
    coversFrom 0 (_identify_phase_runs events) events.length = true ∧
    _identify_phase_runs ([] : List Event) = [] := by
  refine ⟨?_, rfl⟩
  have hne : events.isEmpty = false := by
    cases events with
    | nil => exact absurd rfl h
    | cons a l => rfl
  have hlen : 1 ≤ events.length := by
    cases events with
    | nil => exact absurd rfl h
    | cons a l => simp
  simp only [_identify_phase_runs, hne, Bool.false_eq_true, if_false]
  apply capLoop_coversFrom
  · split <;> (try split) <;> omega
  apply smoothLoop_coversFrom _ _ []
  · rw [List.reverse_nil, coversFrom_nil_iff]
  apply smoothLoop_coversFrom _ _ []
  · rw [List.reverse_nil, coversFrom_nil_iff]
  apply buildRuns_coversFrom
  · rw [List.length_map]
    omega
  · omega
  · rw [coversFrom_nil_iff]

/-- Concrete 4-event session: read, grep, edit (code change), test run. -/
def demoEvents : List Event :=
  [{ tool_name := some "Read", files_affected := ["/main.py"] },
   { tool_name := some "Grep" },
   { tool_name := some "Edit", event_type := EventType.code_change,
     files_affected := ["/main.py"], timestamp := 10 },
   { tool_name := some "Bash", summary := "pytest run", timestamp := 20 }]

/-- Witness for C1 at a concrete non-empty session. -/
theorem timeline_partition_witness :
    demoEvents ≠ [] ∧
    coversFrom 0 (_identify_phase_runs demoEvents) demoEvents.length = true :=
  ⟨List.cons_ne_nil _ _, (timeline_partition demoEvents (List.cons_ne_nil _ _)).1⟩

/-! ### C2, C3: run-count cap and cap-loop termination -/

/-- A run's recorded times are the timestamps of its boundary events. -/
def entryOk (events : List Event) (p : TimelinePhase) : Bool :=
  (p.start_time == (events.getD p.start_index dfltEvent).timestamp) &&
  (p.end_time == (events.getD p.end_index dfltEvent).timestamp)

theorem entryOk_iff {events : List Event} {p : TimelinePhase} :
    entryOk events p = true ↔
      p.start_time = (events.getD p.start_index dfltEvent).timestamp ∧
      p.end_time = (events.getD p.end_index dfltEvent).timestamp := by
  simp [entryOk]

theorem entryOk_mergeWithPrev {events : List Event} {prev run : TimelinePhase}
    (hp : entryOk events prev = true) (hr : entryOk events run = true) :
    entryOk events (mergeWithPrev prev run) = true := by
  rw [entryOk_iff] at hp hr ⊢
  exact ⟨hp.1, hr.2⟩

theorem buildRuns_entryOk (events : List Event) :
    ∀ (fuel : Nat) (phases : List SessionPhase) (i : Nat) (cp : SessionPhase)
      (si : Nat) (runs : List TimelinePhase),
      (∀ x ∈ runs, entryOk events x = true) →
      ∀ x ∈ buildRuns events fuel phases i cp si runs, entryOk events x = true := by
  intro fuel
  induction fuel with
  | zero =>
    intro phases i cp si runs hruns x hx
    rw [buildRuns] at hx
    rcases List.mem_append.1 hx with hx | hx
    · exact hruns x hx
    · rcases List.mem_singleton.1 hx with rfl
      rw [entryOk_iff]
      exact ⟨rfl, rfl⟩
  | succ f ih =>
    intro phases i cp si runs hruns x hx
    simp only [buildRuns] at hx
    rcases hx' : (phases.getD i SessionPhase.unknown != cp) with _ | _ <;>
      rw [hx'] at hx
    · simp only [Bool.false_eq_true, if_false] at hx
      exact ih phases (i + 1) cp si runs hruns x hx
    · simp only [if_true] at hx
      by_cases hb : blipCheck phases i cp = true
      · rw [if_pos hb] at hx
        exact ih (phases.set i cp) (i + 1) cp si runs hruns x hx
      · rw [if_neg hb] at hx
        apply ih phases (i + 1) _ i _ _ x hx
        intro y hy
        rcases List.mem_append.1 hy with hy | hy
        · exact hruns y hy
        · rcases List.mem_singleton.1 hy with rfl
          rw [entryOk_iff]
          exact ⟨rfl, rfl⟩

theorem smoothLoop_entryOk (events : List Event)
    (mergeCond : TimelinePhase → TimelinePhase → Bool) :
    ∀ (rest accRev : List TimelinePhase),
      (∀ x ∈ accRev, entryOk events x = true) →
      (∀ x ∈ rest, entryOk events x = true) →
      ∀ x ∈ smoothLoop mergeCond accRev rest, entryOk events x = true := by
  intro rest
  induction rest with
  | nil =>
    intro accRev hacc hrest x hx
    rw [smoothLoop] at hx
    exact hacc x (List.mem_reverse.1 hx)
  | cons run rest ih =>
    intro accRev hacc hrest x hx
    have hrun : entryOk events run = true := hrest run (List.mem_cons_self _ _)
    have hrest' : ∀ y ∈ rest, entryOk events y = true :=
      fun y hy => hrest y (List.mem_cons_of_mem _ hy)
    cases accRev with
    | nil =>
      rw [smoothLoop] at hx
      apply ih [run] _ hrest' x hx
      intro y hy
      rcases List.mem_singleton.1 hy with rfl
      exact hrun
    | cons prev ms =>
      rw [smoothLoop] at hx
      have hprev : entryOk events prev = true := hacc prev (List.mem_cons_self _ _)
      have hms : ∀ y ∈ ms, entryOk events y = true :=
        fun y hy => hacc y (List.mem_cons_of_mem _ hy)
      split at hx
      · apply ih (mergeWithPrev prev run :: ms) _ hrest' x hx
        intro y hy
        rcases List.mem_cons.1 hy with rfl | hy
        · exact entryOk_mergeWithPrev hprev hrun
        · exact hms y hy
      · apply ih (run :: prev :: ms) _ hrest' x hx
        intro y hy
        rcases List.mem_cons.1 hy with rfl | hy
        · exact hrun
        · rcases List.mem_cons.1 hy with rfl | hy
          · exact hprev
          · exact hms y hy

theorem mem_getD_of_lt {α : Type} {l : List α} {i : Nat} (d : α)
    (h : i < l.length) : l.getD i d ∈ l := by
  rw [List.getD_eq_getElem?_getD, List.getElem?_eq_getElem h]
  exact List.getElem_mem _

theorem mergeStep_entryOk {events : List Event} {cs : List TimelinePhase}
    (h2 : 2 ≤ cs.length) (hall : ∀ x ∈ cs, entryOk events x = true) :
    ∀ x ∈ mergeStep cs, entryOk events x = true := by
  obtain ⟨hb, hlt⟩ := mergeTargets_spec cs h2
  intro x hx
  simp only [mergeStep] at hx
  have hx' := (List.eraseIdx_sublist _ _).mem hx
  rcases List.mem_or_eq_of_mem_set hx' with hx'' | rfl
  · exact hall x hx''
  · have hpa : entryOk events (cs.getD (mergeTargets cs).1 dfltPhase) = true :=
      hall _ (mem_getD_of_lt _ (by omega))
    have hpb : entryOk events (cs.getD (mergeTargets cs).2 dfltPhase) = true :=
      hall _ (mem_getD_of_lt _ (by omega))
    rw [entryOk_iff] at hpa hpb ⊢
    exact ⟨hpa.1, hpb.2⟩

theorem capLoop_entryOk {events : List Event} :
    ∀ (fuel max_phases : Nat) (cs : List TimelinePhase), 1 ≤ max_phases →
    (∀ x ∈ cs, entryOk events x = true) →
    ∀ x ∈ capLoop fuel max_phases cs, entryOk events x = true := by
  intro fuel
  induction fuel with
  | zero => intro mp cs hmp hall; exact hall
  | succ f ih =>
    intro mp cs hmp hall
    rw [capLoop]
    split
    · exact ih mp (mergeStep cs) hmp (mergeStep_entryOk (by omega) hall)
    · exact hall

theorem getLastD_mem {ps : List TimelinePhase} (hne : ps ≠ []) :
    (ps.getLast?).getD dfltPhase ∈ ps := by
  cases ps with
  | nil => exact absurd rfl hne
  | cons p rest =>
    rw [List.getLast?_eq_getLast _ (by simp), Option.getD_some]
    exact List.getLast_mem _

theorem coversFrom_last_end : ∀ (ps : List TimelinePhase) {s e : Nat},
    ps ≠ [] → coversFrom s ps e = true →
    ((ps.getLast?).getD dfltPhase).end_index + 1 = e := by
  intro ps
  induction ps with
  | nil => intro s e hne; exact absurd rfl hne
  | cons p rest ih =>
    intro s e hne hcov
    rw [coversFrom_cons_iff] at hcov
    cases rest with
    | nil =>
      rw [coversFrom_nil_iff] at hcov
      simpa using hcov.2.2.2
    | cons q rest' =>
      rw [List.getLast?_cons_cons]
      exact ih (by simp) hcov.2.2.2

/-- On any tiling of the whole event range with boundary-faithful times, the
timeline duration is the last event's timestamp minus the first's. -/
theorem chain_duration {events : List Event} {ps : List TimelinePhase}
    (hne : ps ≠ []) (hcov : coversFrom 0 ps events.length = true)
    (hall : ∀ x ∈ ps, entryOk events x = true) :
    timelineDuration ps =
      (events.getD (events.length - 1) dfltEvent).timestamp -
      (events.getD 0 dfltEvent).timestamp := by
  have hlast := coversFrom_last_end ps hne hcov
  have hlmem := getLastD_mem hne
  have hlok := (entryOk_iff.1 (hall _ hlmem)).2
  cases ps with
  | nil => exact absurd rfl hne
  | cons p rest =>
    rw [coversFrom_cons_iff] at hcov
    have hhok := (entryOk_iff.1 (hall p (List.mem_cons_self _ _))).1
    rw [timelineDuration]
    have hend : ((p :: rest).getLast?.getD dfltPhase).end_index =
        events.length - 1 := by omega
    rw [List.headD_cons, hlok, hend, hhok, hcov.1]

theorem mergeStep_length {cs : List TimelinePhase} (h2 : 2 ≤ cs.length) :
    (mergeStep cs).length + 1 = cs.length := by
  obtain ⟨hb, hlt⟩ := mergeTargets_spec cs h2
  simp only [mergeStep]
  rw [List.length_eraseIdx, List.length_set, if_pos hlt]
  omega

theorem capLoop_length : ∀ (fuel max_phases : Nat) (cs : List TimelinePhase),
    1 ≤ max_phases → cs.length ≤ fuel + max_phases →
    (capLoop fuel max_phases cs).length ≤ max_phases := by
  intro fuel
  induction fuel with
  | zero =>
    intro mp cs hmp hle
    rw [capLoop]
    omega
  | succ f ih =>
    intro mp cs hmp hle
    rw [capLoop]
    split
    · have hms : (mergeStep cs).length + 1 = cs.length := mergeStep_length (by omega)
      exact ih mp (mergeStep cs) hmp (by omega)
    · omega

theorem capLoop_done {fuel max_phases : Nat} {cs : List TimelinePhase}
    (h : cs.length ≤ max_phases) : capLoop fuel max_phases cs = cs := by
  cases fuel with
  | zero => rw [capLoop]
  | succ f =>
    rw [capLoop, if_neg]
    omega

theorem capLoop_fuel_stable : ∀ (fuel k max_phases : Nat) (cs : List TimelinePhase),
    1 ≤ max_phases → cs.length ≤ fuel + max_phases →
    capLoop (fuel + k) max_phases cs = capLoop fuel max_phases cs := by
  intro fuel
  induction fuel with
  | zero =>
    intro k mp cs hmp hle
    rw [capLoop_done (by omega), capLoop_done (by omega)]
  | succ f ih =>
    intro k mp cs hmp hle
    by_cases hg : mp < cs.length
    · have hss : f + 1 + k = (f + k) + 1 := by omega
      rw [hss, capLoop, capLoop, if_pos hg, if_pos hg]
      have hms : (mergeStep cs).length + 1 = cs.length := mergeStep_length (by omega)
      exact ih k mp (mergeStep cs) hmp (by omega)
    · rw [capLoop_done (by omega), capLoop_done (by omega)]

/-- C3: the cap-enforcement loop terminates on every input: with the
initial run count as iteration budget it reaches the cap (for any positive
cap, in particular the source's 6 and 8), extra iterations change nothing,
and each iteration of its body strictly decreases the run count by exactly
one merge of two adjacent runs. -/
theorem cap_loop_termination (cs : List TimelinePhase) (max_phases k : Nat)
    (hmp : 1 ≤ max_phases) :
    (capLoop cs.length max_phases cs).length ≤ max_phases ∧
    capLoop (cs.length + k) max_phases cs = capLoop cs.length max_phases cs ∧
    (max_phases < cs.length → (mergeStep cs).length + 1 = cs.length) :=
  ⟨capLoop_length cs.length max_phases cs hmp (by omega),
   capLoop_fuel_stable cs.length k max_phases cs hmp (by omega),
   fun h => mergeStep_length (by omega)⟩

/-- Eight runs of equal event count (the claim's worst case for tie-breaking). -/
def demoRuns : List TimelinePhase :=
  (List.range 8).map fun i =>
    { phase := SessionPhase.exploration, start_index := i, end_index := i,
      start_time := 0, end_time := 0, event_count := 1 }

/-- Witness for C3: eight equal-sized runs against the cap of 6. -/
theorem cap_loop_termination_witness :
    1 ≤ 6 ∧ (capLoop demoRuns.length 6 demoRuns).length ≤ 6 ∧
    capLoop (demoRuns.length + 5) 6 demoRuns = capLoop demoRuns.length 6 demoRuns :=
  ⟨by decide, (cap_loop_termination demoRuns 6 5 (by decide)).1,
   (cap_loop_termination demoRuns 6 5 (by decide)).2.1⟩

theorem isEmpty_eq_false_of_ne_nil {α : Type} {l : List α} (h : l ≠ []) :
    l.isEmpty = false := by
  cases l with
  | nil => exact absurd rfl h
  | cons a t => rfl

theorem not_mem_nil_elim {α : Type} {P : α → Prop} :
    ∀ x ∈ ([] : List α), P x := fun x hx => absurd hx (List.not_mem_nil x)

theorem capLoop_cap_bound {events : List Event} {C : List TimelinePhase}
    (hlen : 1 ≤ events.length)
    (hcov : coversFrom 0 C events.length = true)
    (hall : ∀ x ∈ C, entryOk events x = true) :
    (capLoop C.length (if 3600 < timelineDuration C then 8 else 6) C).length ≤
      (if 3600 < timelineDuration (capLoop C.length
          (if 3600 < timelineDuration C then 8 else 6) C) then 8 else 6) := by
  have hCne : C ≠ [] := coversFrom_ne_nil hcov (by omega)
  by_cases hd : 3600 < timelineDuration C
  · rw [if_pos hd]
    have hcovR := capLoop_coversFrom C.length 8 C (by omega) hcov
    have hallR := capLoop_entryOk C.length 8 C (by omega) hall
    have hRne : capLoop C.length 8 C ≠ [] := coversFrom_ne_nil hcovR (by omega)
    have hdur : timelineDuration (capLoop C.length 8 C) = timelineDuration C := by
      rw [chain_duration hRne hcovR hallR, chain_duration hCne hcov hall]
    rw [hdur, if_pos hd]
    exact capLoop_length C.length 8 C (by omega) (by omega)
  · rw [if_neg hd]
    have hlenR := capLoop_length C.length 6 C (by omega) (by omega)
    split
    · omega
    · exact hlenR

/-- C2: the returned timeline never has more than 8 phases when the total
session duration (last phase end time minus first phase start time) exceeds
3600 seconds, and never more than 6 otherwise. -/
theorem timeline_cap (events : List Event) :
    (_identify_phase_runs events).length ≤
      (if 3600 < timelineDuration (_identify_phase_runs events) then 8 else 6) := by
  by_cases h : events = []
  · subst h
    have h0 : _identify_phase_runs ([] : List Event) = [] := rfl
    rw [h0]
    split <;> simp
  · have hne : events.isEmpty = false := isEmpty_eq_false_of_ne_nil h
    have hlen : 1 ≤ events.length := by
      cases events with
      | nil => exact absurd rfl h
      | cons a l => simp
    have hcovC : coversFrom 0 (consolidateSamePhase (absorbSmallRuns
        (buildRuns events ((events.map _detect_phase_from_event).length - 1)
          (events.map _detect_phase_from_event) 1
          ((events.map _detect_phase_from_event).headD SessionPhase.unknown)
          0 []))) events.length = true := by
      apply smoothLoop_coversFrom _ _ []
      · rw [List.reverse_nil, coversFrom_nil_iff]
      apply smoothLoop_coversFrom _ _ []
      · rw [List.reverse_nil, coversFrom_nil_iff]
      apply buildRuns_coversFrom
      · rw [List.length_map]
        omega
      · omega
      · rw [coversFrom_nil_iff]
    have hallC : ∀ x ∈ consolidateSamePhase (absorbSmallRuns
        (buildRuns events ((events.map _detect_phase_from_event).length - 1)
          (events.map _detect_phase_from_event) 1
          ((events.map _detect_phase_from_event).headD SessionPhase.unknown)
          0 [])), entryOk events x = true := by
      apply smoothLoop_entryOk events _ _ [] not_mem_nil_elim
      apply smoothLoop_entryOk events _ _ [] not_mem_nil_elim
      exact buildRuns_entryOk events _ _ _ _ _ _ not_mem_nil_elim
    have hCne := coversFrom_ne_nil hcovC (by omega)
    simp only [_identify_phase_runs, hne, Bool.false_eq_true, if_false,
      isEmpty_eq_false_of_ne_nil hCne]
    exact capLoop_cap_bound hlen hcovC hallC

/-! ### C6: decision points (analyzer.py lines 391-416) -/

/-- Insert into a strictly sorted list, dropping duplicates. -/
def insertSorted (x : Nat) : List Nat → List Nat
  | [] => [x]
  | y :: ys =>
    if x < y then x :: y :: ys
    else if x == y then y :: ys
    else y :: insertSorted x ys

/-- Python `sorted(set(l))`: the strictly increasing enumeration of the
members of `l`. -/
def sortedDedup (l : List Nat) : List Nat := l.foldr insertSorted []

theorem mem_insertSorted {x z : Nat} : ∀ {l : List Nat},
    z ∈ insertSorted x l ↔ z = x ∨ z ∈ l := by
  intro l
  induction l with
  | nil => simp [insertSorted]
  | cons y ys ih =>
    rw [insertSorted]
    split
    · simp
    · split
      · rename_i hxy
        have : x = y := by simpa using hxy
        subst this
        simp only [List.mem_cons]
        constructor
        · intro h; exact Or.inr h
        · rintro (rfl | h)
          · exact Or.inl rfl
          · exact h
      · simp only [List.mem_cons, ih]
        constructor
        · rintro (rfl | h)
          · exact Or.inr (Or.inl rfl)
          · rcases h with h | h
            · exact Or.inl h
            · exact Or.inr (Or.inr h)
        · rintro (h | h | h)
          · exact Or.inr (Or.inl h)
          · exact Or.inl h
          · exact Or.inr (Or.inr h)

theorem pairwise_insertSorted {x : Nat} : ∀ {l : List Nat},
    l.Pairwise (· < ·) → (insertSorted x l).Pairwise (· < ·) := by
  intro l
  induction l with
  | nil => intro _; simp [insertSorted]
  | cons y ys ih =>
    intro hp
    rw [List.pairwise_cons] at hp
    obtain ⟨hy, hys⟩ := hp
    rw [insertSorted]
    split
    · rename_i hxy
      rw [List.pairwise_cons]
      refine ⟨?_, List.pairwise_cons.2 ⟨hy, hys⟩⟩
      intro z hz
      rcases List.mem_cons.1 hz with rfl | hz
      · exact hxy
      · exact Nat.lt_trans hxy (hy z hz)
    · split
      · exact List.pairwise_cons.2 ⟨hy, hys⟩
      · rename_i hnlt hne
        have hyx : y < x := by
          simp only [beq_iff_eq] at hne
          omega
        rw [List.pairwise_cons]
        refine ⟨?_, ih hys⟩
        intro z hz
        rcases mem_insertSorted.1 hz with rfl | hz
        · exact hyx
        · exact hy z hz

theorem mem_sortedDedup {z : Nat} : ∀ {l : List Nat},
    z ∈ sortedDedup l ↔ z ∈ l := by
  intro l
  induction l with
  | nil => simp [sortedDedup]
  | cons a t ih =>
    show z ∈ insertSorted a (sortedDedup t) ↔ _
    rw [mem_insertSorted, ih]
    simp

theorem pairwise_sortedDedup : ∀ (l : List Nat),
    (sortedDedup l).Pairwise (· < ·) := by
  intro l
  induction l with
  | nil => simp [sortedDedup]
  | cons a t ih => exact pairwise_insertSorted ih

/-- Rule (a) of `_identify_decision_points`: `i > 0`, the classified phase
changes at `i`, and the new phase is `implementation`. -/
def decisionRuleA (events : List Event) (i : Nat) : Bool :=
  decide (0 < i) &&
    (_detect_phase_from_event (events.getD (i - 1) dfltEvent) !=
      _detect_phase_from_event (events.getD i dfltEvent)) &&
    (_detect_phase_from_event (events.getD i dfltEvent) ==
      SessionPhase.implementation)

/-- `new_files`: files of event `i` not referenced by any earlier event. -/
def newFiles (events : List Event) (i : Nat) : List String :=
  (events.getD i dfltEvent).files_affected.filter fun f =>
    !(events.take i).any fun prev => prev.files_affected.contains f

/-- Rule (b): a `code_change` event with files, at least one never seen. -/
def decisionRuleB (events : List Event) (i : Nat) : Bool :=
  ((events.getD i dfltEvent).event_type == EventType.code_change) &&
    !(events.getD i dfltEvent).files_affected.isEmpty &&
    !(newFiles events i).isEmpty

/-- `_identify_decision_points` (analyzer.py lines 391-416): the loop may
append `i` once per rule; `sorted(set(...))` is taken at the end. -/
def _identify_decision_points (events : List Event) : List Nat :=
  sortedDedup ((List.range events.length).flatMap fun i =>
    (if decisionRuleA events i then [i] else []) ++
    (if decisionRuleB events i then [i] else []))

theorem contains_iff_mem {α : Type} [BEq α] [LawfulBEq α] {l : List α} {a : α} :
    l.contains a = true ↔ a ∈ l := by
  show List.elem a l = true ↔ a ∈ l
  exact List.elem_iff

theorem decisionRuleA_iff {events : List Event} {i : Nat} :
    decisionRuleA events i = true ↔
      0 < i ∧
      _detect_phase_from_event (events.getD (i - 1) dfltEvent) ≠
        _detect_phase_from_event (events.getD i dfltEvent) ∧
      _detect_phase_from_event (events.getD i dfltEvent) =
        SessionPhase.implementation := by
  simp [decisionRuleA, and_assoc]


theorem isEmpty_eq_false_iff {α : Type} {l : List α} :
    l.isEmpty = false ↔ l ≠ [] := by
  cases l <;> simp

theorem forall_mem_take_iff {α : Type} (d : α) {l : List α} {n : Nat}
    (hn : n ≤ l.length) (p : α → Prop) :
    (∀ x ∈ l.take n, p x) ↔ ∀ j, j < n → p (l.getD j d) := by
  constructor
  · intro h j hj
    have hjl : j < l.length := by omega
    have hjt : j < (l.take n).length := by
      rw [List.length_take]
      omega
    have he : (l.take n)[j] = l[j] := List.getElem_take l
    have hm : l[j] ∈ l.take n := by
      rw [← he]
      exact List.getElem_mem hjt
    have hg : l.getD j d = l[j] := by
      rw [List.getD_eq_getElem?_getD, List.getElem?_eq_getElem hjl]
      rfl
    rw [hg]
    exact h _ hm
  · intro h x hx
    obtain ⟨j, hj, rfl⟩ := List.mem_iff_getElem.1 hx
    have hjn : j < n := by
      rw [List.length_take] at hj
      omega
    have hjl : j < l.length := by
      rw [List.length_take] at hj
      omega
    have he : (l.take n)[j] = l[j] := List.getElem_take l
    have hg : l.getD j d = l[j] := by
      rw [List.getD_eq_getElem?_getD, List.getElem?_eq_getElem hjl]
      rfl
    rw [he, ← hg]
    exact h j hjn

theorem decisionRuleB_iff {events : List Event} {i : Nat}
    (hi : i ≤ events.length) :
    decisionRuleB events i = true ↔
      (events.getD i dfltEvent).event_type = EventType.code_change ∧
      ∃ f ∈ (events.getD i dfltEvent).files_affected,
        ∀ j, j < i → ¬ f ∈ (events.getD j dfltEvent).files_affected := by
  rw [decisionRuleB]
  simp only [Bool.and_eq_true, beq_iff_eq, Bool.not_eq_true']
  constructor
  · rintro ⟨⟨hty, _⟩, hnf⟩
    refine ⟨hty, ?_⟩
    have hne : newFiles events i ≠ [] := isEmpty_eq_false_iff.1 hnf
    have hex : ∃ f ∈ (events.getD i dfltEvent).files_affected,
        (!(events.take i).any fun prev => prev.files_affected.contains f) = true := by
      by_contra hc
      push_neg at hc
      apply hne
      rw [newFiles, List.filter_eq_nil_iff]
      intro a ha hpa
      exact hc a ha hpa
    obtain ⟨f, hf, hp⟩ := hex
    refine ⟨f, hf, ?_⟩
    rw [Bool.not_eq_true', List.any_eq_false] at hp
    have hall : ∀ prev ∈ events.take i, ¬ f ∈ prev.files_affected := by
      intro prev hprev hmem
      exact hp prev hprev (contains_iff_mem.2 hmem)
    exact (forall_mem_take_iff dfltEvent hi
      (fun prev => ¬ f ∈ prev.files_affected)).1 hall
  · rintro ⟨hty, f, hf, hnew⟩
    have hp : (!(events.take i).any fun prev =>
        prev.files_affected.contains f) = true := by
      rw [Bool.not_eq_true', List.any_eq_false]
      intro prev hprev hcont
      exact (forall_mem_take_iff dfltEvent hi
        (fun prev => ¬ f ∈ prev.files_affected)).2 hnew prev hprev
        (contains_iff_mem.1 hcont)
    refine ⟨⟨hty, ?_⟩, ?_⟩
    · exact isEmpty_eq_false_iff.2 (List.ne_nil_of_mem hf)
    · exact isEmpty_eq_false_iff.2
        (List.ne_nil_of_mem (List.mem_filter.2 ⟨hf, hp⟩))

/-- A read event followed by an edit event touching a brand-new file (the
claim's concrete scenario). -/
def demoReadEvent : Event := { tool_name := some "Read" }

/-- The edit event of the decision-point scenario. -/
def demoEditEvent : Event :=
  { tool_name := some "Edit", event_type := EventType.code_change,
    files_affected := ["/new.py"] }

/-- C6: index `i` is a decision point iff the classified phase changes into
`implementation` at `i`, or event `i` is a `code_change` touching at least
one file never referenced earlier; the result is strictly increasing (hence
sorted and duplicate-free); and in the read-then-edit-new-file scenario,
index 1 qualifies under both rules. -/
theorem decision_points_spec :
    (∀ (events : List Event) (i : Nat),
      i ∈ _identify_decision_points events ↔
        i < events.length ∧
        ((0 < i ∧
            _detect_phase_from_event (events.getD (i - 1) dfltEvent) ≠
              _detect_phase_from_event (events.getD i dfltEvent) ∧
            _detect_phase_from_event (events.getD i dfltEvent) =
              SessionPhase.implementation) ∨
          ((events.getD i dfltEvent).event_type = EventType.code_change ∧
            ∃ f ∈ (events.getD i dfltEvent).files_affected,
              ∀ j, j < i → ¬ f ∈ (events.getD j dfltEvent).files_affected))) ∧
    (∀ events : List Event,
      (_identify_decision_points events).Pairwise (· < ·) ∧
      (_identify_decision_points events).Nodup) ∧
    (1 ∈ _identify_decision_points [demoReadEvent, demoEditEvent] ∧
      decisionRuleA [demoReadEvent, demoEditEvent] 1 = true ∧
      decisionRuleB [demoReadEvent, demoEditEvent] 1 = true) := by
  refine ⟨?_, ?_, ?_, ?_, ?_⟩
  · intro events i
    rw [_identify_decision_points, mem_sortedDedup, List.mem_flatMap]
    constructor
    · rintro ⟨j, hj, hmem⟩
      have hjl : j < events.length := List.mem_range.1 hj
      have hij : i = j ∧ (decisionRuleA events j = true ∨
          decisionRuleB events j = true) := by
        rcases List.mem_append.1 hmem with hm | hm
        · by_cases ha : decisionRuleA events j = true
          · rw [if_pos ha] at hm
            exact ⟨List.mem_singleton.1 hm, Or.inl ha⟩
          · rw [if_neg ha] at hm
            exact absurd hm (List.not_mem_nil i)
        · by_cases hb : decisionRuleB events j = true
          · rw [if_pos hb] at hm
            exact ⟨List.mem_singleton.1 hm, Or.inr hb⟩
          · rw [if_neg hb] at hm
            exact absurd hm (List.not_mem_nil i)
      obtain ⟨rfl, hr⟩ := hij
      refine ⟨hjl, ?_⟩
      rcases hr with hr | hr
      · exact Or.inl (decisionRuleA_iff.1 hr)
      · exact Or.inr ((decisionRuleB_iff (by omega)).1 hr)
    · rintro ⟨hil, hr⟩
      refine ⟨i, List.mem_range.2 hil, ?_⟩
      rcases hr with hr | hr
      · rw [List.mem_append]
        exact Or.inl (by rw [if_pos (decisionRuleA_iff.2 hr)]; exact List.mem_singleton.2 rfl)
      · rw [List.mem_append]
        exact Or.inr (by
          rw [if_pos ((decisionRuleB_iff (by omega)).2 hr)]
          exact List.mem_singleton.2 rfl)
  · intro events
    exact ⟨pairwise_sortedDedup _,
      (pairwise_sortedDedup _).imp (fun h => Nat.ne_of_lt h)⟩
  · decide
  · decide
  · decide

/-! ### Insight miner (analyzer.py lines 267-388)

`_extract_insights` computes `tools_sequence`, `files_touched`,
`error_indices` and `fix_after_error` in a single pass; the four quantities
do not interact, so they are embedded as separate single-pass functions, and
the emitted insights are concatenated in the source's order (detours,
hotspots, exploration bursts, ratio insights). -/

/-- `tools_sequence`: `event.tool_name or ""` per event. -/
def toolsSequence (events : List Event) : List String :=
  events.map fun e => e.tool_name.getD ""

/-- Append index `i` to the entry of file `f`, preserving first-seen key
order (a Python dict preserves insertion order). -/
def addTouch (acc : List (String × List Nat)) (f : String) (i : Nat) :
    List (String × List Nat) :=
  match acc with
  | [] => [(f, [i])]
  | (g, idxs) :: rest =>
    if g == f then (g, idxs ++ [i]) :: rest
    else (g, idxs) :: addTouch rest f i

/-- `files_touched`: per file path, the indices of events referencing it. -/
def filesTouched (events : List Event) : List (String × List Nat) :=
  (List.range events.length).foldl
    (fun acc i =>
      (events.getD i dfltEvent).files_affected.foldl
        (fun acc2 f => addTouch acc2 f i) acc)
    []

/-- The error/fix walk (analyzer.py lines 283-288): track the most recent
`error` index; each `code_change` seen after at least one error records the
pair `(error_indices[-1], i)`. -/
def fixAfterErrorGo : Nat → Option Nat → List Event → List (Nat × Nat)
  | _, _, [] => []
  | i, lastErr, e :: rest =>
    if e.event_type == EventType.error then
      fixAfterErrorGo (i + 1) (some i) rest
    else if lastErr.isSome && (e.event_type == EventType.code_change) then
      (lastErr.getD 0, i) :: fixAfterErrorGo (i + 1) lastErr rest
    else
      fixAfterErrorGo (i + 1) lastErr rest

/-- `fix_after_error`. -/
def fixAfterError (events : List Event) : List (Nat × Nat) :=
  fixAfterErrorGo 0 none events

/-- The debugging-detour insight (analyzer.py lines 295-307). -/
def detourInsight (events : List Event) (err_idx fix_idx : Nat) : Insight :=
  { insight_type := InsightType.mistake,
    title := "Debugging detour detected",
    description :=
      "An error at event #" ++ toString err_idx ++ " led to " ++
      toString (fix_idx - err_idx) ++
      " events of investigation before a fix at event #" ++
      toString fix_idx ++ ". Error: " ++
      (events.getD err_idx dfltEvent).summary,
    supporting_events := [err_idx, fix_idx],
    confidence := mkRat 6 10 }

/-- Python `filepath.split("/")[-1]`. -/
def lastPathComponent (s : String) : String :=
  ⟨((s.data.reverse.takeWhile fun c => c != '/').reverse)⟩

/-- The hotspot-file insight (analyzer.py lines 312-323). -/
def hotspotInsight (filepath : String) (indices : List Nat) : Insight :=
  { insight_type := InsightType.pattern,
    title := "Hotspot file: " ++ lastPathComponent filepath,
    description :=
      filepath ++ " was modified " ++ toString indices.length ++
      " times during the session, suggesting it\x27s a central piece.",
    supporting_events := indices.take 5,
    confidence := mkRat 7 10 }

/-- The exploration-burst counter (analyzer.py lines 326-336): count maximal
runs of ≥ 5 consecutive tools among exactly `Read`, `Glob`, `Grep`,
`WebSearch`; a trailing run also counts. -/
def explorationRunsGo : Nat → Nat → List String → Nat
  | runs, current, [] => if 5 ≤ current then runs + 1 else runs
  | runs, current, t :: ts =>
    if t == "Read" || t == "Glob" || t == "Grep" || t == "WebSearch" then
      explorationRunsGo runs (current + 1) ts
    else
      explorationRunsGo (if 5 ≤ current then runs + 1 else runs) 0 ts

/-- `exploration_runs` over a tool-name sequence. -/
def explorationRuns (tools : List String) : Nat :=
  explorationRunsGo 0 0 tools

/-- The multiple-exploration-phases insight (analyzer.py lines 339-350). -/
def explorationInsight (runsCount : Nat) : Insight :=
  { insight_type := InsightType.pattern,
    title := "Multiple exploration phases",
    description :=
      "The session had " ++ toString runsCount ++
      " significant exploration phases (5+ consecutive read/search " ++
      "operations), suggesting an iterative discovery process.",
    confidence := mkRat 7 10 }

/-- `tool_counts[t]` — occurrences of tool `t` in the sequence. -/
def toolCount (events : List Event) (t : String) : Nat :=
  (toolsSequence events).count t

/-- `total = sum(tool_counts.values())`: events with a non-empty tool name. -/
def totalToolCount (events : List Event) : Nat :=
  ((toolsSequence events).filter fun t => !(t == "")).length

/-- `read_tools = Read + Grep + Glob` counts. -/
def readToolCount (events : List Event) : Nat :=
  toolCount events "Read" + toolCount events "Grep" + toolCount events "Glob"

/-- `write_tools = Edit + Write` counts. -/
def writeToolCount (events : List Event) : Nat :=
  toolCount events "Edit" + toolCount events "Write"

/-- The read-heavy insight (analyzer.py lines 359-370). -/
def readHeavyInsight (read_tools total : Nat) : Insight :=
  { insight_type := InsightType.pattern,
    title := "Read-heavy session",
    description :=
      toString read_tools ++ "/" ++ toString total ++ " events (" ++
      toString (read_tools * 100 / total) ++
      "%) were reading/searching operations. This session was " ++
      "primarily about understanding existing code.",
    confidence := mkRat 8 10 }

/-- The implementation-heavy insight (analyzer.py lines 375-386). -/
def implHeavyInsight (write_tools total : Nat) : Insight :=
  { insight_type := InsightType.pattern,
    title := "Implementation-heavy session",
    description :=
      toString write_tools ++ "/" ++ toString total ++ " events (" ++
      toString (write_tools * 100 / total) ++
      "%) were code modifications. This was a focused " ++
      "implementation session.",
    confidence := mkRat 8 10 }

/-- `_extract_insights` (analyzer.py lines 267-388).  Python `float`
comparisons `x / total > 0.6` and `> 0.5` are modelled as exact rational
comparisons `mkRat x total` (the `total > 0` guard matches the source's). -/
def _extract_insights (events : List Event) : List Insight :=
  let detours := (fixAfterError events).filterMap fun p =>
    if 5 < p.2 - p.1 then some (detourInsight events p.1 p.2) else none
  let hotspots := (filesTouched events).filterMap fun fi =>
    if 4 ≤ fi.2.length then some (hotspotInsight fi.1 fi.2) else none
  let bursts :=
    if 2 ≤ explorationRuns (toolsSequence events) then
      [explorationInsight (explorationRuns (toolsSequence events))] else []
  let total := totalToolCount events
  let ratios :=
    if 0 < total then
      (if mkRat 6 10 < mkRat (readToolCount events) total then
        [readHeavyInsight (readToolCount events) total] else []) ++
      (if 5 < total ∧ mkRat 1 2 < mkRat (writeToolCount events) total then
        [implHeavyInsight (writeToolCount events) total] else [])
    else []
  detours ++ hotspots ++ bursts ++ ratios

/-! ### C7: debugging-detour insights -/

/-- Invariant of the error/fix walk: `lastErr` is the most recent `error`
index among the first `i` events (or there is none). -/
def lastErrInv (events : List Event) (i : Nat) : Option Nat → Prop
  | none => ∀ j, j < i → (events.getD j dfltEvent).event_type ≠ EventType.error
  | some l => l < i ∧ (events.getD l dfltEvent).event_type = EventType.error ∧
      ∀ k, l < k → k < i → (events.getD k dfltEvent).event_type ≠ EventType.error

theorem getD_append_length {α : Type} (d : α) :
    ∀ (pre : List α) (e : α) (rest : List α),
    (pre ++ e :: rest).getD pre.length d = e := by
  intro pre
  induction pre with
  | nil => intro e rest; rfl
  | cons a t ih =>
    intro e rest
    show (a :: (t ++ e :: rest)).getD (t.length + 1) d = e
    rw [List.getD_cons_succ]
    exact ih e rest

theorem fixAfterErrorGo_mem (events : List Event) :
    ∀ (rest pre : List Event) (lastErr : Option Nat) (p : Nat × Nat),
      events = pre ++ rest →
      lastErrInv events pre.length lastErr →
      (p ∈ fixAfterErrorGo pre.length lastErr rest ↔
        pre.length ≤ p.2 ∧ p.2 < events.length ∧
        (events.getD p.2 dfltEvent).event_type = EventType.code_change ∧
        p.1 < p.2 ∧ (events.getD p.1 dfltEvent).event_type = EventType.error ∧
        ∀ k, p.1 < k → k < p.2 →
          (events.getD k dfltEvent).event_type ≠ EventType.error) := by
  intro rest
  induction rest with
  | nil =>
    intro pre lastErr p hev hinv
    rw [fixAfterErrorGo]
    constructor
    · intro h
      exact absurd h (List.not_mem_nil p)
    · rintro ⟨h1, h2, _⟩
      have : events.length = pre.length := by
        rw [hev, List.append_nil]
      omega
  | cons e rest' ih =>
    intro pre lastErr p hev hinv
    have hgetI : events.getD pre.length dfltEvent = e := by
      rw [hev]
      exact getD_append_length dfltEvent pre e rest'
    have hev' : events = (pre ++ [e]) ++ rest' := by
      rw [hev, List.append_assoc, List.singleton_append]
    have hlen' : (pre ++ [e]).length = pre.length + 1 := by simp
    have hlenev : pre.length < events.length := by
      rw [hev, List.length_append, List.length_cons]
      omega
    rw [fixAfterErrorGo]
    by_cases hE : e.event_type = EventType.error
    · rw [if_pos (by simp [hE])]
      have hinv' : lastErrInv events (pre ++ [e]).length (some pre.length) := by
        rw [hlen']
        exact ⟨by omega, by rw [hgetI]; exact hE, fun k hk1 hk2 => by omega⟩
      have hrec := ih (pre ++ [e]) (some pre.length) p hev' hinv'
      rw [hlen'] at hrec
      rw [hrec]
      have hp2ne : (events.getD p.2 dfltEvent).event_type = EventType.code_change →
          p.2 ≠ pre.length := by
        intro hcc hp2
        rw [hp2, hgetI, hE] at hcc
        exact absurd hcc (by decide)
      constructor
      · rintro ⟨h1, h2⟩
        exact ⟨by omega, h2⟩
      · rintro ⟨h1, h2, h3, h4⟩
        have := hp2ne h3
        exact ⟨by omega, h2, h3, h4⟩
    · rw [if_neg (by simp [hE])]
      cases lastErr with
      | none =>
        rw [if_neg (by simp)]
        have hinv' : lastErrInv events (pre ++ [e]).length none := by
          rw [hlen']
          intro j hj
          rcases Nat.lt_or_ge j pre.length with h | h
          · exact hinv j h
          · have : j = pre.length := by omega
            rw [this, hgetI]
            exact hE
        have hrec := ih (pre ++ [e]) none p hev' hinv'
        rw [hlen'] at hrec
        rw [hrec]
        constructor
        · rintro ⟨h1, h2⟩
          exact ⟨by omega, h2⟩
        · rintro ⟨h1, h2, h3, h4, h5, h6⟩
          have hp2 : p.2 ≠ pre.length := by
            intro hp2
            exact hinv p.1 (by omega) h5
          exact ⟨by omega, h2, h3, h4, h5, h6⟩
      | some l =>
        obtain ⟨hl1, hl2, hl3⟩ := hinv
        have hinv' : lastErrInv events (pre ++ [e]).length (some l) := by
          rw [hlen']
          refine ⟨by omega, hl2, fun k hk1 hk2 => ?_⟩
          rcases Nat.lt_or_ge k pre.length with h | h
          · exact hl3 k hk1 h
          · have : k = pre.length := by omega
            rw [this, hgetI]
            exact hE
        have hrec := ih (pre ++ [e]) (some l) p hev' hinv'
        rw [hlen'] at hrec
        by_cases hC : e.event_type = EventType.code_change
        · rw [if_pos (by simp [hC])]
          rw [List.mem_cons, hrec]
          simp only [Option.getD_some]
          constructor
          · rintro (rfl | ⟨h1, h2⟩)
            · refine ⟨by omega, hlenev, by rw [hgetI]; exact hC, hl1, hl2, ?_⟩
              intro k hk1 hk2
              exact hl3 k hk1 hk2
            · exact ⟨by omega, h2⟩
          · rintro ⟨h1, h2, h3, h4, h5, h6⟩
            rcases Nat.lt_or_ge p.2 (pre.length + 1) with hlt | hge
            · left
              have hp2 : p.2 = pre.length := by omega
              have hp1 : p.1 = l := by
                rcases Nat.lt_trichotomy p.1 l with h | h | h
                · exact absurd hl2 (h6 l h (by omega))
                · exact h
                · exact absurd h5 (hl3 p.1 h (by omega))
              have : p = (p.1, p.2) := rfl
              rw [this, hp1, hp2]
            · right
              exact ⟨hge, h2, h3, h4, h5, h6⟩
        · rw [if_neg (by simp [hC])]
          rw [hrec]
          constructor
          · rintro ⟨h1, h2⟩
            exact ⟨by omega, h2⟩
          · rintro ⟨h1, h2, h3, h4, h5, h6⟩
            have hp2 : p.2 ≠ pre.length := by
              intro hp2
              rw [hp2, hgetI] at h3
              exact hC h3
            exact ⟨by omega, h2, h3, h4, h5, h6⟩

theorem fixAfterError_mem (events : List Event) (p : Nat × Nat) :
    p ∈ fixAfterError events ↔
      p.2 < events.length ∧
      (events.getD p.2 dfltEvent).event_type = EventType.code_change ∧
      p.1 < p.2 ∧ (events.getD p.1 dfltEvent).event_type = EventType.error ∧
      ∀ k, p.1 < k → k < p.2 →
        (events.getD k dfltEvent).event_type ≠ EventType.error := by
  have h := fixAfterErrorGo_mem events events [] none p (by simp)
    (fun j hj => absurd hj (Nat.not_lt_zero j))
  rw [fixAfterError]
  simp only [List.length_nil] at h
  rw [h]
  constructor
  · rintro ⟨_, h2⟩
    exact h2
  · intro h2
    exact ⟨Nat.zero_le _, h2⟩

theorem listStartsWith_append : ∀ (p r : List Char),
    listStartsWith (p ++ r) p = true := by
  intro p
  induction p with
  | nil => intro r; simp [listStartsWith]
  | cons a as ih =>
    intro r
    show (a == a && listStartsWith (as ++ r) as) = true
    rw [beq_self_eq_true, ih, Bool.and_self]

theorem listStartsWith_self (p : List Char) : listStartsWith p p = true := by
  have h := listStartsWith_append p []
  simpa using h

theorem listContainsSub_nil_pat : ∀ (m : List Char),
    listContainsSub m [] = true := by
  intro m
  cases m with
  | nil => rfl
  | cons c cs => simp [listContainsSub, listStartsWith]

theorem listContainsSub_suffix : ∀ (xs p : List Char),
    listContainsSub (xs ++ p) p = true := by
  intro xs
  induction xs with
  | nil =>
    intro p
    cases p with
    | nil => rfl
    | cons c cs =>
      show listContainsSub (c :: cs) (c :: cs) = true
      rw [listContainsSub, listStartsWith_self, Bool.true_or]
  | cons x xs ih =>
    intro p
    show listContainsSub (x :: (xs ++ p)) p = true
    rw [listContainsSub, ih, Bool.or_true]

theorem listStartsWith_extend : ∀ (p l m : List Char),
    listStartsWith l p = true → listStartsWith (l ++ m) p = true := by
  intro p
  induction p with
  | nil => intro l m _; simp [listStartsWith]
  | cons b bs ih =>
    intro l m h
    cases l with
    | nil => simp [listStartsWith] at h
    | cons a as =>
      rw [listStartsWith] at h
      rw [Bool.and_eq_true] at h
      show listStartsWith (a :: (as ++ m)) (b :: bs) = true
      rw [listStartsWith, h.1, ih as m h.2, Bool.and_self]

theorem listContainsSub_extend_right : ∀ (l m p : List Char),
    listContainsSub l p = true → listContainsSub (l ++ m) p = true := by
  intro l
  induction l with
  | nil =>
    intro m p h
    cases p with
    | nil => exact listContainsSub_nil_pat m
    | cons b bs => simp [listContainsSub, listStartsWith] at h
  | cons a as ih =>
    intro m p h
    rw [listContainsSub] at h
    rw [Bool.or_eq_true] at h
    show listContainsSub (a :: (as ++ m)) p = true
    rw [listContainsSub]
    rcases h with h | h
    · have h2 := listStartsWith_extend p (a :: as) m h
      rw [List.cons_append] at h2
      rw [h2, Bool.true_or]
    · rw [ih m p h, Bool.or_true]

theorem strContainsSub_suffix (a b : String) : strContainsSub (a ++ b) b = true := by
  show listContainsSub (a.data ++ b.data) b.data = true
  exact listContainsSub_suffix a.data b.data

theorem strContainsSub_extend_right (s t pat : String)
    (h : strContainsSub s pat = true) : strContainsSub (s ++ t) pat = true := by
  show listContainsSub (s.data ++ t.data) pat.data = true
  exact listContainsSub_extend_right s.data t.data pat.data h

theorem filter_mistake_of_pattern {l : List Insight}
    (h : ∀ x ∈ l, x.insight_type = InsightType.pattern) :
    l.filter (fun ins => ins.insight_type == InsightType.mistake) = [] := by
  rw [List.filter_eq_nil_iff]
  intro a ha
  rw [h a ha]
  decide

theorem filter_mistake_self {l : List Insight}
    (h : ∀ x ∈ l, x.insight_type = InsightType.mistake) :
    l.filter (fun ins => ins.insight_type == InsightType.mistake) = l := by
  rw [List.filter_eq_self]
  intro a ha
  rw [h a ha]
  decide

theorem extract_insights_mistake_filter (events : List Event) :
    (_extract_insights events).filter
        (fun ins => ins.insight_type == InsightType.mistake) =
      (fixAfterError events).filterMap fun p =>
        if 5 < p.2 - p.1 then some (detourInsight events p.1 p.2) else none := by
  have hdet : ∀ x ∈ ((fixAfterError events).filterMap fun p =>
      if 5 < p.2 - p.1 then some (detourInsight events p.1 p.2) else none),
      x.insight_type = InsightType.mistake := by
    intro x hx
    obtain ⟨a, _, hfa⟩ := List.mem_filterMap.1 hx
    split at hfa
    · simp only [Option.some.injEq] at hfa
      subst hfa
      rfl
    · exact absurd hfa (by simp)
  have hhot : ∀ x ∈ ((filesTouched events).filterMap fun fi =>
      if 4 ≤ fi.2.length then some (hotspotInsight fi.1 fi.2) else none),
      x.insight_type = InsightType.pattern := by
    intro x hx
    obtain ⟨a, _, hfa⟩ := List.mem_filterMap.1 hx
    split at hfa
    · simp only [Option.some.injEq] at hfa
      subst hfa
      rfl
    · exact absurd hfa (by simp)
  have hbur : ∀ x ∈ (if 2 ≤ explorationRuns (toolsSequence events) then
      [explorationInsight (explorationRuns (toolsSequence events))] else []),
      x.insight_type = InsightType.pattern := by
    intro x hx
    split at hx
    · rcases List.mem_singleton.1 hx with rfl
      rfl
    · exact absurd hx (List.not_mem_nil x)
  have hrat : ∀ x ∈ (if 0 < totalToolCount events then
      (if mkRat 6 10 < mkRat (readToolCount events) (totalToolCount events) then
        [readHeavyInsight (readToolCount events) (totalToolCount events)] else []) ++
      (if 5 < totalToolCount events ∧
          mkRat 1 2 < mkRat (writeToolCount events) (totalToolCount events) then
        [implHeavyInsight (writeToolCount events) (totalToolCount events)] else [])
      else []), x.insight_type = InsightType.pattern := by
    intro x hx
    split at hx
    · rcases List.mem_append.1 hx with hm | hm
      · split at hm
        · rcases List.mem_singleton.1 hm with rfl
          rfl
        · exact absurd hm (List.not_mem_nil x)
      · split at hm
        · rcases List.mem_singleton.1 hm with rfl
          rfl
        · exact absurd hm (List.not_mem_nil x)
    · exact absurd hx (List.not_mem_nil x)
  rw [_extract_insights]
  simp only [List.filter_append]
  rw [filter_mistake_self hdet, filter_mistake_of_pattern hhot,
    filter_mistake_of_pattern hbur, filter_mistake_of_pattern hrat]
  simp

/-- C7: the mistake-typed insights of the miner are exactly one detour
insight (confidence 0.6, supporting events `[error, fix]`, description
naming the error summary and the gap) per candidate-fix pair whose gap
exceeds 5; the candidate-fix pairs are exactly the pairs (most recent error
index, code-change index) for code changes preceded by an error. -/
theorem detour_insights_spec (events : List Event) :
    ((_extract_insights events).filter
        (fun ins => ins.insight_type == InsightType.mistake) =
      (fixAfterError events).filterMap fun p =>
        if 5 < p.2 - p.1 then some (detourInsight events p.1 p.2) else none) ∧
    (∀ p : Nat × Nat, p ∈ fixAfterError events ↔
      p.2 < events.length ∧
      (events.getD p.2 dfltEvent).event_type = EventType.code_change ∧
      p.1 < p.2 ∧ (events.getD p.1 dfltEvent).event_type = EventType.error ∧
      ∀ k, p.1 < k → k < p.2 →
        (events.getD k dfltEvent).event_type ≠ EventType.error) ∧
    (∀ e f : Nat,
      (detourInsight events e f).confidence = mkRat 6 10 ∧
      (detourInsight events e f).supporting_events = [e, f] ∧
      strContainsSub (detourInsight events e f).description
        (events.getD e dfltEvent).summary = true ∧
      strContainsSub (detourInsight events e f).description
        (toString (f - e)) = true) :=
  ⟨extract_insights_mistake_filter events,
   fun p => fixAfterError_mem events p,
   fun e f =>
    ⟨rfl, rfl, strContainsSub_suffix _ _, by
      apply strContainsSub_extend_right
      apply strContainsSub_extend_right
      apply strContainsSub_extend_right
      apply strContainsSub_extend_right
      exact strContainsSub_suffix _ _⟩⟩

/-! ### C8: implementation-heavy insight -/

/-- Six events: four with the `Edit` tool, two without any tool. -/
def cxEvents : List Event :=
  [{ tool_name := some "Edit" }, { tool_name := some "Edit" },
   { tool_name := some "Edit" }, { tool_name := some "Edit" },
   { tool_name := none }, { tool_name := none }]

/-- C8 counterexample: the claim's antecedent holds — more than 5 events in
the sequence and more than half of all events use write-like tools — yet the
miner emits no "Implementation-heavy session" insight: its `total` counts
only events with a non-empty tool name (here 4, which is not above 5). -/
theorem impl_heavy_counterexample :
    5 < cxEvents.length ∧
    mkRat 1 2 < mkRat (writeToolCount cxEvents) cxEvents.length ∧
    totalToolCount cxEvents = 4 ∧
    (_extract_insights cxEvents).all
      (fun ins => !(ins.title == "Implementation-heavy session")) = true := by
  refine ⟨by decide, by decide, by decide, by decide⟩

/-- C8 (amended): when more than 5 events carry a non-empty tool name and
Edit/Write events exceed half of those, the miner emits the
implementation-heavy pattern insight with confidence 0.8 whose description
cites the integer-truncated percentage `write_tools * 100 // total`. -/
theorem impl_heavy_amended (events : List Event)
    (h1 : 5 < totalToolCount events)
    (h2 : mkRat 1 2 < mkRat (writeToolCount events) (totalToolCount events)) :
    implHeavyInsight (writeToolCount events) (totalToolCount events) ∈
      _extract_insights events ∧
    (implHeavyInsight (writeToolCount events) (totalToolCount events)).insight_type
      = InsightType.pattern ∧
    (implHeavyInsight (writeToolCount events) (totalToolCount events)).confidence
      = mkRat 8 10 ∧
    strContainsSub
      (implHeavyInsight (writeToolCount events) (totalToolCount events)).description
      (toString (writeToolCount events * 100 / totalToolCount events)) = true := by
  refine ⟨?_, rfl, rfl, ?_⟩
  · rw [_extract_insights]
    apply List.mem_append.2
    apply Or.inr
    rw [if_pos (by omega)]
    apply List.mem_append.2
    apply Or.inr
    rw [if_pos ⟨h1, h2⟩]
    exact List.mem_singleton.2 rfl
  · apply strContainsSub_extend_right
    apply strContainsSub_extend_right
    exact strContainsSub_suffix _ _

/-- Six events all using the Edit tool. -/
def implDemoEvents : List Event :=
  [{ tool_name := some "Edit" }, { tool_name := some "Edit" },
   { tool_name := some "Edit" }, { tool_name := some "Edit" },
   { tool_name := some "Edit" }, { tool_name := some "Edit" }]

/-- Witness for the amended C8 at six all-Edit events. -/
theorem impl_heavy_amended_witness :
    5 < totalToolCount implDemoEvents ∧
    mkRat 1 2 < mkRat (writeToolCount implDemoEvents)
      (totalToolCount implDemoEvents) ∧
    implHeavyInsight (writeToolCount implDemoEvents)
        (totalToolCount implDemoEvents) ∈ _extract_insights implDemoEvents :=
  ⟨by decide, by decide,
   (impl_heavy_amended implDemoEvents (by decide) (by decide)).1⟩

/-! ### C10: WebFetch and the exploration-burst detector -/

/-- C10: in the exploration-burst detector only `Read`, `Glob`, `Grep` and
`WebSearch` extend a run; an event whose tool is `WebFetch` flushes and
resets the current run to 0 — even though the classifier's tool table maps
`WebFetch` to `exploration` — so a `WebFetch` can split an
otherwise-qualifying burst. -/
theorem webfetch_resets_burst :
    (∀ (runs current : Nat) (ts : List String),
      explorationRunsGo runs current ("WebFetch" :: ts) =
        explorationRunsGo (if 5 ≤ current then runs + 1 else runs) 0 ts) ∧
    PHASE_INDICATORS.lookup "WebFetch" = some [SessionPhase.exploration] ∧
    explorationRuns (List.replicate 5 "Read" ++
      "WebFetch" :: List.replicate 5 "Read") = 2 ∧
    explorationRuns (List.replicate 11 "Read") = 1 ∧
    explorationRuns (List.replicate 3 "Read" ++
      "WebFetch" :: List.replicate 3 "Read") = 0 ∧
    explorationRuns (List.replicate 7 "Read") = 1 := by
  refine ⟨?_, by decide, by decide, by decide, by decide, by decide⟩
  intro runs current ts
  rw [explorationRunsGo]
  rw [if_neg (by decide)]

/-! ### C9: cross-session aggregation (analyzer.py lines 694-725)

The `SessionStore` collaborator (store.py) keeps a SQLite index of sessions
and per-session replay files; it is modelled as the list of indexed sessions
in newest-first `start_time` order, each paired with its optionally saved
replay.  `list_sessions` is the query `ORDER BY start_time DESC LIMIT ?` and
`get_replay` the per-session file read (`None` when no replay was saved). -/

/-- `SessionMetadata` (models.py), reduced to the one field
`aggregate_learnings` reads. -/
structure SessionMetadata where
  session_id : String
deriving DecidableEq

/-- `SessionReplay` (models.py), reduced to the fields the aggregation
reads. -/
structure SessionReplay where
  metadata : SessionMetadata
  insights : List Insight
deriving DecidableEq

/-- Model of the `SessionStore` collaborator (store.py). -/
structure SessionStore where
  sessions : List (SessionMetadata × Option SessionReplay)

/-- `store.list_sessions(limit=...)`: up to `limit` most-recent sessions. -/
def SessionStore.list_sessions (store : SessionStore) (limit : Nat) :
    List SessionMetadata :=
  (store.sessions.map Prod.fst).take limit

/-- `store.get_replay(session_id)`. -/
def SessionStore.get_replay (store : SessionStore) (session_id : String) :
    Option SessionReplay :=
  match store.sessions.find? (fun s => s.1.session_id == session_id) with
  | some s => s.2
  | none => none

/-- Python `s.strip()` (whitespace from both ends). -/
def strTrim (s : String) : String :=
  ⟨((s.data.dropWhile Char.isWhitespace).reverse.dropWhile
      Char.isWhitespace).reverse⟩

/-- `insight.title.lower().strip()`, the dedup key. -/
def titleKey (i : Insight) : String := strTrim (strToLower i.title)

/-- The dedup loop of `aggregate_learnings`: the first occurrence of each
case-insensitive trimmed title survives. -/
def dedupByTitle (seen : List String) : List Insight → List Insight
  | [] => []
  | i :: rest =>
    if seen.contains (titleKey i) then dedupByTitle seen rest
    else i :: dedupByTitle (titleKey i :: seen) rest

/-- Stable insertion for descending confidence — the embedding of the stable
`unique.sort(key=lambda x: x.confidence, reverse=True)`. -/
def insertByConf (x : Insight) : List Insight → List Insight
  | [] => [x]
  | y :: ys =>
    if y.confidence ≤ x.confidence then x :: y :: ys
    else y :: insertByConf x ys

/-- Stable descending sort by confidence. -/
def sortByConfDesc (l : List Insight) : List Insight := l.foldr insertByConf []

/-- `aggregate_learnings` (analyzer.py lines 694-725). -/
def aggregate_learnings (store : SessionStore) (limit : Nat) : List Insight :=
  let sessions := store.list_sessions limit
  let all_insights := sessions.foldl
    (fun acc m => match store.get_replay m.session_id with
      | some replay => acc ++ replay.insights
      | none => acc) []
  let unique := dedupByTitle [] all_insights
  sortByConfDesc unique

/-- The insights contributed by one session: its saved replay's insights, or
nothing when no replay was saved. -/
def sessionInsights (store : SessionStore) (m : SessionMetadata) : List Insight :=
  match store.get_replay m.session_id with
  | some replay => replay.insights
  | none => []

theorem foldl_insights_eq (store : SessionStore) :
    ∀ (ms : List SessionMetadata) (acc : List Insight),
      ms.foldl (fun acc m => match store.get_replay m.session_id with
        | some replay => acc ++ replay.insights
        | none => acc) acc
      = acc ++ ms.flatMap (sessionInsights store) := by
  intro ms
  induction ms with
  | nil => intro acc; simp
  | cons m rest ih =>
    intro acc
    rw [List.foldl_cons, List.flatMap_cons, ih]
    rw [sessionInsights]
    cases hrep : store.get_replay m.session_id with
    | some r => simp
    | none => simp

theorem dedupByTitle_subset : ∀ (l : List Insight) (seen : List String)
    (x : Insight), x ∈ dedupByTitle seen l → x ∈ l := by
  intro l
  induction l with
  | nil => intro seen x hx; exact absurd hx (List.not_mem_nil x)
  | cons i rest ih =>
    intro seen x hx
    rw [dedupByTitle] at hx
    split at hx
    · exact List.mem_cons_of_mem _ (ih seen x hx)
    · rcases List.mem_cons.1 hx with rfl | hx
      · exact List.mem_cons_self _ _
      · exact List.mem_cons_of_mem _ (ih _ x hx)

theorem dedupByTitle_key_fresh : ∀ (l : List Insight) (seen : List String)
    (x : Insight), x ∈ dedupByTitle seen l →
    seen.contains (titleKey x) = false := by
  intro l
  induction l with
  | nil => intro seen x hx; exact absurd hx (List.not_mem_nil x)
  | cons i rest ih =>
    intro seen x hx
    rw [dedupByTitle] at hx
    split at hx
    · exact ih seen x hx
    · rename_i hc
      rcases List.mem_cons.1 hx with rfl | hx
      · exact Bool.not_eq_true _ ▸ (Bool.eq_false_iff.2 hc)
      · have h2 := ih _ x hx
        rw [List.contains_cons, Bool.or_eq_false_iff] at h2
        exact h2.2

theorem dedupByTitle_pairwise : ∀ (l : List Insight) (seen : List String),
    (dedupByTitle seen l).Pairwise (fun a b => titleKey a ≠ titleKey b) := by
  intro l
  induction l with
  | nil => intro seen; simp [dedupByTitle]
  | cons i rest ih =>
    intro seen
    rw [dedupByTitle]
    split
    · exact ih seen
    · rw [List.pairwise_cons]
      refine ⟨?_, ih _⟩
      intro z hz
      have h2 := dedupByTitle_key_fresh rest _ z hz
      rw [List.contains_cons, Bool.or_eq_false_iff] at h2
      intro heq
      rw [heq] at h2
      simp at h2

theorem dedupByTitle_covers : ∀ (l : List Insight) (seen : List String)
    (y : Insight), y ∈ l → seen.contains (titleKey y) = false →
    ∃ x ∈ dedupByTitle seen l, titleKey x = titleKey y := by
  intro l
  induction l with
  | nil => intro seen y hy; exact absurd hy (List.not_mem_nil y)
  | cons i rest ih =>
    intro seen y hy hfresh
    rw [dedupByTitle]
    split
    · rename_i hc
      rcases List.mem_cons.1 hy with rfl | hy
      · rw [hfresh] at hc
        exact absurd hc (by simp)
      · exact ih seen y hy hfresh
    · rcases List.mem_cons.1 hy with rfl | hy
      · exact ⟨y, List.mem_cons_self _ _, rfl⟩
      · by_cases hk : titleKey y = titleKey i
        · exact ⟨i, List.mem_cons_self _ _, hk.symm⟩
        · obtain ⟨x, hx1, hx2⟩ := ih (titleKey i :: seen) y hy (by
            rw [List.contains_cons, Bool.or_eq_false_iff]
            exact ⟨by simp [hk], hfresh⟩)
          exact ⟨x, List.mem_cons_of_mem _ hx1, hx2⟩

theorem dedupByTitle_first : ∀ (l : List Insight) (seen : List String)
    (x : Insight), x ∈ dedupByTitle seen l →
    l.find? (fun j => titleKey j == titleKey x) = some x := by
  intro l
  induction l with
  | nil => intro seen x hx; exact absurd hx (List.not_mem_nil x)
  | cons i rest ih =>
    intro seen x hx
    rw [dedupByTitle] at hx
    split at hx
    · rename_i hc
      have hfresh := dedupByTitle_key_fresh rest seen x hx
      have hne : ¬ (titleKey i == titleKey x) = true := by
        intro hbe
        rw [beq_iff_eq] at hbe
        rw [← hbe, hc] at hfresh
        exact absurd hfresh (by simp)
      have hstep : List.find? (fun j => titleKey j == titleKey x) (i :: rest) =
          List.find? (fun j => titleKey j == titleKey x) rest :=
        List.find?_cons_of_neg rest hne
      rw [hstep]
      exact ih seen x hx
    · rcases List.mem_cons.1 hx with rfl | hx
      · exact List.find?_cons_of_pos _ (by simp)
      · have hfresh := dedupByTitle_key_fresh rest _ x hx
        rw [List.contains_cons, Bool.or_eq_false_iff] at hfresh
        have hne : ¬ (titleKey i == titleKey x) = true := by
          intro hbe
          rw [beq_iff_eq] at hbe
          have := hfresh.1
          rw [hbe] at this
          simp at this
        have hstep : List.find? (fun j => titleKey j == titleKey x) (i :: rest) =
            List.find? (fun j => titleKey j == titleKey x) rest :=
          List.find?_cons_of_neg rest hne
        rw [hstep]
        exact ih _ x hx

theorem perm_insertByConf : ∀ (l : List Insight) (x : Insight),
    (insertByConf x l).Perm (x :: l) := by
  intro l
  induction l with
  | nil => intro x; exact List.Perm.refl _
  | cons y ys ih =>
    intro x
    rw [insertByConf]
    split
    · exact List.Perm.refl _
    · exact ((ih x).cons y).trans (List.Perm.swap x y ys)

theorem perm_sortByConfDesc : ∀ (l : List Insight),
    (sortByConfDesc l).Perm l := by
  intro l
  induction l with
  | nil => exact List.Perm.refl _
  | cons a t ih =>
    show (insertByConf a (sortByConfDesc t)).Perm (a :: t)
    exact (perm_insertByConf _ a).trans (ih.cons a)

theorem pairwise_conf_insertByConf : ∀ (l : List Insight) (x : Insight),
    l.Pairwise (fun a b => b.confidence ≤ a.confidence) →
    (insertByConf x l).Pairwise (fun a b => b.confidence ≤ a.confidence) := by
  intro l
  induction l with
  | nil => intro x _; simp [insertByConf]
  | cons y ys ih =>
    intro x hp
    rw [List.pairwise_cons] at hp
    obtain ⟨hy, hys⟩ := hp
    rw [insertByConf]
    split
    · rename_i hle
      rw [List.pairwise_cons]
      refine ⟨?_, List.pairwise_cons.2 ⟨hy, hys⟩⟩
      intro z hz
      rcases List.mem_cons.1 hz with rfl | hz
      · exact hle
      · exact le_trans (hy z hz) hle
    · rename_i hgt
      rw [List.pairwise_cons]
      refine ⟨?_, ih x hys⟩
      intro z hz
      rcases (perm_insertByConf ys x).mem_iff.1 hz with hz'
      rcases List.mem_cons.1 hz' with rfl | hz''
      · exact le_of_not_le hgt
      · exact hy z hz''

theorem pairwise_conf_sortByConfDesc : ∀ (l : List Insight),
    (sortByConfDesc l).Pairwise (fun a b => b.confidence ≤ a.confidence) := by
  intro l
  induction l with
  | nil => simp [sortByConfDesc]
  | cons a t ih => exact pairwise_conf_insertByConf _ a ih

/-- C9: `aggregate_learnings` inspects at most `limit` most-recent sessions,
concatenates the insights of those with a saved replay in session order,
keeps only the first insight per case-insensitive trimmed title, and returns
the survivors in descending confidence order. -/
theorem aggregate_learnings_spec (store : SessionStore) (limit : Nat) :
    ((store.list_sessions limit).length ≤ limit) ∧
    (aggregate_learnings store limit =
      sortByConfDesc (dedupByTitle []
        ((store.list_sessions limit).flatMap (sessionInsights store)))) ∧
    (aggregate_learnings store limit).Pairwise
      (fun a b => b.confidence ≤ a.confidence) ∧
    (aggregate_learnings store limit).Pairwise
      (fun a b => titleKey a ≠ titleKey b) ∧
    (∀ x ∈ aggregate_learnings store limit,
      ((store.list_sessions limit).flatMap (sessionInsights store)).find?
        (fun j => titleKey j == titleKey x) = some x) ∧
    (∀ y ∈ (store.list_sessions limit).flatMap (sessionInsights store),
      ∃ x ∈ aggregate_learnings store limit, titleKey x = titleKey y) := by
  have hagg : aggregate_learnings store limit =
      sortByConfDesc (dedupByTitle []
        ((store.list_sessions limit).flatMap (sessionInsights store))) := by
    rw [aggregate_learnings, foldl_insights_eq, List.nil_append]
  refine ⟨?_, hagg, ?_, ?_, ?_, ?_⟩
  · rw [SessionStore.list_sessions, List.length_take, List.length_map]
    omega
  · rw [hagg]
    exact pairwise_conf_sortByConfDesc _
  · rw [hagg]
    exact ((List.Perm.pairwise_iff (fun h => h.symm)
      (perm_sortByConfDesc _)).2 (dedupByTitle_pairwise _ []))
  · intro x hx
    rw [hagg] at hx
    exact dedupByTitle_first _ [] x ((perm_sortByConfDesc _).mem_iff.1 hx)
  · intro y hy
    obtain ⟨x, hx1, hx2⟩ := dedupByTitle_covers _ [] y hy rfl
    refine ⟨x, ?_, hx2⟩
    rw [hagg]
    exact (perm_sortByConfDesc _).mem_iff.2 hx1
